import Mathlib

/-!
Verification development for the `synapi` module (`src/synapi.py`): a
path-based convenience layer over a remote Synapse entity store.  The Python
module is shallowly embedded: relative paths are lists of characters, the
remote store is a list of entities with a fresh-id counter, every mutating
operation is a function from the store to a result paired with the store
reached when the operation returns or raises (so state reached before an
exception is preserved, as in Python), and the local filesystem touched by
`upload`/`download` is a list of path-keyed entries.
-/

namespace Synapi

/-- Paths and entity names are lists of characters (Python strings). -/
abbrev Str := List Char

/-- Shorthand turning a Lean string literal into the character list used by
the embedding. -/
def str (s : String) : Str := s.data

/-- Python `s.split(sep)` for a one-character separator: never empty, keeps
empty segments, `"".split(sep) == [""]`. -/
def pySplit (sep : Char) : Str → List Str
  | [] => [[]]
  | c :: cs =>
    if c = sep then [] :: pySplit sep cs
    else
      match pySplit sep cs with
      | [] => [[c]]
      | p :: ps => (c :: p) :: ps

/-- Python `sep.join(parts)` for a one-character separator. -/
def pyJoin (sep : Char) : List Str → Str
  | [] => []
  | [p] => p
  | p :: q :: ps => p ++ sep :: pyJoin sep (q :: ps)

theorem pySplit_ne_nil (sep : Char) (l : Str) : pySplit sep l ≠ [] := by
  cases l with
  | nil => simp [pySplit]
  | cons c cs =>
    by_cases h : c = sep
    · simp [pySplit, h]
    · cases hs : pySplit sep cs <;> simp [pySplit, h, hs]

theorem pyJoin_pySplit (sep : Char) (l : Str) : pyJoin sep (pySplit sep l) = l := by
  induction l with
  | nil => simp [pySplit, pyJoin]
  | cons c cs ih =>
    by_cases h : c = sep
    · cases hs : pySplit sep cs with
      | nil => exact absurd hs (pySplit_ne_nil sep cs)
      | cons p ps =>
        rw [hs] at ih
        simp [pySplit, h, hs, pyJoin, ih]
    · cases hs : pySplit sep cs with
      | nil => exact absurd hs (pySplit_ne_nil sep cs)
      | cons p ps =>
        rw [hs] at ih
        cases ps with
        | nil => simp [pySplit, h, hs, pyJoin] at ih ⊢; exact ih
        | cons q qs =>
          simp [pySplit, h, hs, pyJoin] at ih ⊢
          exact ih

theorem pySplit_of_not_mem {sep : Char} {l : Str} (h : sep ∉ l) :
    pySplit sep l = [l] := by
  induction l with
  | nil => simp [pySplit]
  | cons c cs ih =>
    simp only [List.mem_cons, not_or] at h
    rw [pySplit, if_neg (fun hc => h.1 hc.symm), ih h.2]

theorem two_le_length_pySplit {sep : Char} {l : Str} (h : sep ∈ l) :
    2 ≤ (pySplit sep l).length := by
  induction l with
  | nil => simp at h
  | cons c cs ih =>
    by_cases hc : c = sep
    · have := pySplit_ne_nil sep cs
      cases hs : pySplit sep cs with
      | nil => exact absurd hs this
      | cons p ps => simp [pySplit, hc, hs]
    · have hmem : sep ∈ cs := by
        rcases List.mem_cons.mp h with h1 | h2
        · exact absurd h1.symm hc
        · exact h2
      cases hs : pySplit sep cs with
      | nil => exact absurd hs (pySplit_ne_nil sep cs)
      | cons p ps =>
        have := ih hmem
        rw [hs] at this
        simp at this
        simp [pySplit, hc, hs]
        omega

theorem length_pyJoin_tail_lt {sep : Char} {l : Str} (h : sep ∈ l) :
    (pyJoin sep (pySplit sep l).tail).length < l.length := by
  induction l with
  | nil => simp at h
  | cons c cs ih =>
    by_cases hc : c = sep
    · cases hs : pySplit sep cs with
      | nil => exact absurd hs (pySplit_ne_nil sep cs)
      | cons p ps =>
        have hj : pyJoin sep (p :: ps) = cs := by rw [← hs]; exact pyJoin_pySplit sep cs
        simp [pySplit, hc, hs, hj]
    · have hmem : sep ∈ cs := by
        rcases List.mem_cons.mp h with h1 | h2
        · exact absurd h1.symm hc
        · exact h2
      cases hs : pySplit sep cs with
      | nil => exact absurd hs (pySplit_ne_nil sep cs)
      | cons p ps =>
        have := ih hmem
        rw [hs] at this
        simp only [List.tail_cons] at this
        simp [pySplit, hc, hs]
        omega

theorem pySplit_append_sep (sep : Char) (a b : Str) :
    pySplit sep (a ++ sep :: b) = pySplit sep a ++ pySplit sep b := by
  induction a with
  | nil => simp [pySplit]
  | cons c cs ih =>
    by_cases hc : c = sep
    · simp [pySplit, hc, ih]
    · cases hs : pySplit sep (cs ++ sep :: b) with
      | nil => exact absurd hs (pySplit_ne_nil sep _)
      | cons p ps =>
        rw [hs] at ih
        cases ht : pySplit sep cs with
        | nil => exact absurd ht (pySplit_ne_nil sep cs)
        | cons q qs =>
          rw [ht] at ih
          simp only [List.cons_append] at ih
          have hq : p = q ∧ ps = qs ++ pySplit sep b := by
            have := ih
            constructor
            · exact (List.cons.injEq .. ▸ this).1
            · exact (List.cons.injEq .. ▸ this).2
          simp [pySplit, hc, hs, ht, List.cons_append, hq.1, hq.2]

/-- Python `path[1:] if path and path[0] == '/' else path`. -/
def stripSlash : Str → Str
  | [] => []
  | c :: cs => if c = '/' then cs else c :: cs

/-- Python `os.path.basename` for relative slash-paths: the last
slash-separated segment. -/
def basename (p : Str) : Str := (pySplit '/' p).getLastD []

/-- The containing path used by `upload`, `get_parent_id` and `mv`:
`os.sep.join(p.split(os.sep)[:-1])`. -/
def dirname (p : Str) : Str := pyJoin '/' (pySplit '/' p).dropLast

theorem basename_of_not_mem {p : Str} (h : '/' ∉ p) : basename p = p := by
  simp [basename, pySplit_of_not_mem h]

theorem stripSlash_of_not_mem {p : Str} (h : '/' ∉ p) : stripSlash p = p := by
  cases p with
  | nil => rfl
  | cons c cs =>
    have : ¬ c = '/' := fun hc => h (by simp [hc])
    simp [stripSlash, this]

theorem stripSlash_length_le (p : Str) : (stripSlash p).length ≤ p.length := by
  cases p with
  | nil => simp [stripSlash]
  | cons c cs => by_cases h : c = '/' <;> simp [stripSlash, h]

/-! ## Remote store data model

The Synapse store is an external collaborator; it is modelled as a list of
entities (kept in creation order, which is the order `getChildren` reports)
plus a fresh-identifier counter.  Entity identifiers are natural numbers
standing for the opaque `synXXXX` strings; `parent = none` marks the project
root, which has no parent.  Concrete types stand for the three
`org.sagebionetworks.repo.model.*` strings the code compares against. -/

/-- Concrete type of a Synapse entity. -/
inductive CType where
  | file
  | folder
  | project
  deriving DecidableEq, Repr

/-- One remote entity: identifier, sibling name, parent link, concrete type
and (for files) content bytes. -/
structure Entity where
  id : Nat
  name : Str
  parent : Option Nat
  ctype : CType
  content : List Nat
  deriving DecidableEq, Repr

/-- The remote store plus the session's project root identifier. -/
structure Store where
  entities : List Entity
  nextId : Nat
  projectId : Nat
  deriving DecidableEq, Repr

/-- `syn.findEntityId(name, parent)`: identifier of the first entity with the
given name under the given parent, if any (the store keeps sibling names
unique, so at most one exists in a well-formed store). -/
def findEntityId (s : Store) (name : Str) (parent : Nat) : Option Nat :=
  (s.entities.find? fun e => decide (e.name = name ∧ e.parent = some parent)).map (·.id)

/-- Lookup of an entity record by identifier. -/
def entityById (s : Store) (i : Nat) : Option Entity :=
  s.entities.find? fun e => decide (e.id = i)

/-- Errors raised by the embedded operations, one constructor per raise
site of the Python module (plus the store client's own failures). -/
inductive Err where
  | notFoundId        -- the store client is handed an unknown/None identifier
  | storeCollision    -- syn.store refuses a name collision (createOrUpdate=False)
  | storeTypeClash    -- syn.store refuses to overwrite an entity of another type
  | mkdirAlreadyExists
  | rmNotFound
  | projectNoParent
  | mvSrcNotFound
  | mvDstExists
  | mvDstParentMissing
  | uploadDirMissing
  | dlLocalExists
  | dlParentMissing
  | dlInvalidRemote
  | localFsClash      -- os.mkdir / os.rename over an existing local path
  | fuel              -- recursion fuel exhausted (unbounded store recursion)
  deriving DecidableEq, Repr

/-- `syn.get(id, downloadFile=False)`: entity metadata, failing on an
unknown identifier. -/
def getMeta (s : Store) (i : Nat) : Except Err Entity :=
  match entityById s i with
  | some e => .ok e
  | none => .error .notFoundId

/-- `syn.getChildren(id, includeTypes=['folder', 'file'])`: the store's
children of an entity, in store order, files and folders only. -/
def getChildren (s : Store) (i : Nat) : List Entity :=
  s.entities.filter fun e =>
    decide (e.parent = some i ∧ (e.ctype = .folder ∨ e.ctype = .file))

/-! ## Path resolver -/

/-- `SynapseSession.get_id`: recursive resolution of a relative path to an
identifier.  Faithful to the source: a `None` parent is replaced by the
project root at every recursion level, `'/'` returns the parent itself, and
otherwise the first segment is looked up by name and resolution recurses on
the joined remaining segments with the (possibly `None`) lookup result as
the new parent. -/
def get_id (s : Store) (path : Str) (parent_id : Option Nat) : Option Nat :=
  let parent := parent_id.getD s.projectId
  if path = str "/" then some parent
  else if h : '/' ∈ path then
    let path_list := pySplit '/' path
    get_id s (pyJoin '/' path_list.tail) (findEntityId s path_list.head! parent)
  else
    findEntityId s path parent
termination_by path.length
decreasing_by
  simpa using length_pyJoin_tail_lt h

/-- Trace of the `syn.findEntityId` calls `get_id` performs, in order: the
same recursion as `get_id` recording each (name, parent) lookup it issues. -/
def get_idCalls (s : Store) (path : Str) (parent_id : Option Nat) : List (Str × Nat) :=
  let parent := parent_id.getD s.projectId
  if path = str "/" then []
  else if h : '/' ∈ path then
    let path_list := pySplit '/' path
    (path_list.head!, parent) ::
      get_idCalls s (pyJoin '/' path_list.tail) (findEntityId s path_list.head! parent)
  else
    [(path, parent)]
termination_by path.length
decreasing_by
  simpa using length_pyJoin_tail_lt h

/-! ## Existence oracle -/

/-- `SynapseSession.exists`: resolve, then compare the entity's concrete
type against the acceptable list; an unresolved path is `False`, not an
error. -/
def exists' (s : Store) (path : Str) (concrete_type : List CType)
    (parent_id : Option Nat) : Except Err Bool :=
  let parent := parent_id.getD s.projectId
  match get_id s path (some parent) with
  | some fsynid =>
    match getMeta s fsynid with
    | .ok info => .ok (decide (info.ctype ∈ concrete_type))
    | .error e => .error e
  | none => .ok false

/-- `SynapseSession.dir_exists`: leading slash stripped, acceptable types
Folder and Project. -/
def dir_exists (s : Store) (path : Str) (parent_id : Option Nat) : Except Err Bool :=
  exists' s (stripSlash path) [CType.folder, CType.project] parent_id

/-- `SynapseSession.file_exists`: leading slash stripped, acceptable type
FileEntity. -/
def file_exists (s : Store) (path : Str) (parent_id : Option Nat) : Except Err Bool :=
  exists' s (stripSlash path) [CType.file] parent_id

/-- `SynapseSession.get_parent_id`: identifier of a path's containing
folder; asking for the parent of the project root is an error. -/
def get_parent_id (s : Store) (path : Str) (parent_id : Option Nat) :
    Except Err (Option Nat) :=
  let parent := parent_id.getD s.projectId
  if path = str "/" ∧ parent = s.projectId then .error .projectNoParent
  else if '/' ∈ path then .ok (get_id s (dirname path) (some parent))
  else .ok (some parent)

/-! ## Store client mutation primitives -/

/-- `syn.store(Folder(name, parent), createOrUpdate=False)`: refuses any
sibling name collision, otherwise appends a fresh folder entity and returns
its identifier. -/
def createFolderStrict (s : Store) (name : Str) (parent : Nat) :
    Except Err (Nat × Store) :=
  match findEntityId s name parent with
  | some _ => .error .storeCollision
  | none => .ok (s.nextId, { s with
      entities := s.entities ++
        [{ id := s.nextId, name := name, parent := some parent,
           ctype := .folder, content := [] }],
      nextId := s.nextId + 1 })

/-- `syn.move(id, newParent)`: re-parent an entity in place. -/
def syn_move (s : Store) (i newParent : Nat) : Except Err Store :=
  match entityById s i with
  | none => .error .notFoundId
  | some _ => .ok { s with
      entities := s.entities.map fun e =>
        if e.id = i then { e with parent := some newParent } else e }

/-- `syn.store(e)` for an already-fetched entity `e` whose properties were
modified: update in place by identifier. -/
def storeUpdate (s : Store) (e' : Entity) : Store :=
  { s with entities := s.entities.map fun e => if e.id = e'.id then e' else e }

/-- One step of the doomed-set closure used by deletion: add every entity
whose parent is already doomed. -/
def expandDoomed (ents : List Entity) (acc : List Nat) : List Nat :=
  acc ++ ((ents.filter fun e =>
    !(acc.contains e.id) && acc.any fun p => e.parent == some p).map (·.id))

/-- Iterated doomed-set closure. -/
def doomedFrom (ents : List Entity) : Nat → List Nat → List Nat
  | 0, acc => acc
  | n + 1, acc => doomedFrom ents n (expandDoomed ents acc)

/-- `syn.delete(id)`: delete an entity together with its whole subtree (the
store deletes recursively; folder depth is bounded by the entity count). -/
def deleteEntity (s : Store) (i : Nat) : Store :=
  let doomed := doomedFrom s.entities s.entities.length [i]
  { s with entities := s.entities.filter fun e => !(doomed.contains e.id) }

mutual

/-- `synapseutils.copy(syn, srcId, destParent)`: recursive bulk copy of the
subtree rooted at `srcId` under `destParent`, preserving names, children in
store order; fresh identifiers are allocated for the copies.  The fuel bounds
the recursion depth (any acyclic store needs at most its entity count). -/
def copySubtree (fuel : Nat) (s : Store) (srcId destParent : Nat) :
    Except Err Store :=
  match fuel with
  | 0 => .error .fuel
  | fuel + 1 =>
    match entityById s srcId with
    | none => .error .notFoundId
    | some e =>
      let newId := s.nextId
      let s1 : Store := { s with
        entities := s.entities ++ [{ e with id := newId, parent := some destParent }],
        nextId := s.nextId + 1 }
      match e.ctype with
      | .folder => copyChildren fuel s1 ((getChildren s srcId).map (·.id)) newId
      | _ => .ok s1
termination_by (fuel, 0)

/-- Helper of `copySubtree`: copy each child subtree in store order,
threading the store. -/
def copyChildren (fuel : Nat) (s : Store) (ids : List Nat) (destParent : Nat) :
    Except Err Store :=
  match ids with
  | [] => .ok s
  | i :: rest =>
    match copySubtree fuel s i destParent with
    | .error e => .error e
    | .ok s' => copyChildren fuel s' rest destParent
termination_by (fuel, ids.length + 1)

end

/-! ## Directory creator, remover, mover, copier -/

theorem mem_of_two_le_length_pySplit {sep : Char} {l : Str}
    (h : 2 ≤ (pySplit sep l).length) : sep ∈ l := by
  by_contra hn
  rw [pySplit_of_not_mem hn] at h
  simp at h

/-- `SynapseSession.mkdir`: reject when the whole (slash-stripped) path
already denotes a folder, then reuse or create the first segment and recurse
on the rest with the first segment's identifier as parent. -/
def mkdir (s : Store) (path : Str) (parent_id : Option Nat) :
    Except Err (Option Nat) × Store :=
  let parent := parent_id.getD s.projectId
  let path' := stripSlash path
  match dir_exists s path' (some parent) with
  | .error e => (.error e, s)
  | .ok true => (.error .mkdirAlreadyExists, s)
  | .ok false =>
    let path_list := pySplit '/' path'
    match (match dir_exists s path_list.head! (some parent) with
      | .error e => Except.error e
      | .ok true => Except.ok (get_id s path_list.head! (some parent), s)
      | .ok false =>
        match createFolderStrict s path_list.head! parent with
        | .error e => Except.error e
        | .ok (i, s') => Except.ok (some i, s')) with
    | .error e => (.error e, s)
    | .ok (child_id, s') =>
      if hlen : path_list.length = 1 then (.ok child_id, s')
      else mkdir s' (pyJoin '/' path_list.tail) child_id
termination_by path.length
decreasing_by
  unfold_let path_list path' at hlen
  have h1 : pySplit '/' (stripSlash path) ≠ [] := pySplit_ne_nil _ _
  have hpos : 0 < (pySplit '/' (stripSlash path)).length := List.length_pos.mpr h1
  have h3 : '/' ∈ stripSlash path := mem_of_two_le_length_pySplit (by omega)
  calc (pyJoin '/' (pySplit '/' (stripSlash path)).tail).length
      < (stripSlash path).length := length_pyJoin_tail_lt h3
    _ ≤ path.length := stripSlash_length_le path

/-- `SynapseSession.rm`: resolve, fail when the path does not resolve,
otherwise delete the entity (and, through the store, its subtree). -/
def rm (s : Store) (path : Str) (parent_id : Option Nat) : Except Err Unit × Store :=
  let parent := parent_id.getD s.projectId
  let path' := stripSlash path
  match get_id s path' (some parent) with
  | none => (.error .rmNotFound, s)
  | some i => (.ok (), deleteEntity s i)

/-- `SynapseSession.mv`: check source resolves, destination does not,
destination's container resolves; then move and rename in two store calls. -/
def mv (s : Store) (src_path dst_path : Str) (parent_id : Option Nat) :
    Except Err Unit × Store :=
  let parent := parent_id.getD s.projectId
  let dst_path := stripSlash dst_path
  if (get_id s src_path (some parent)).isNone then (.error .mvSrcNotFound, s)
  else if (get_id s dst_path (some parent)).isSome then (.error .mvDstExists, s)
  else
    match get_parent_id s dst_path (some parent) with
    | .error e => (.error e, s)
    | .ok none => (.error .mvDstParentMissing, s)
    | .ok (some dst_parent) =>
      match get_id s src_path (some parent) with
      | none => (.error .notFoundId, s)
      | some src_id =>
        match syn_move s src_id dst_parent with
        | .error e => (.error e, s)
        | .ok s1 =>
          match getMeta s1 src_id with
          | .error e => (.error e, s1)
          | .ok e => (.ok (), storeUpdate s1 { e with name := basename dst_path })

/-- `SynapseSession.cp`: the same three checks as `mv`, then create a
temporary staging folder (the randomized name is a parameter of the
embedding), bulk-copy the source into it, move the copy out in two `mv`
steps — the second `mv` is issued without a parent, so it resolves
relative to the project root, exactly as in the source — and remove the
staging folder.  No cleanup runs on the failure paths, exactly as in the
source. -/
def cp (s : Store) (src_path dst_path : Str) (parent_id : Option Nat)
    (temp_dir_name : Str) : Except Err Unit × Store :=
  let parent := parent_id.getD s.projectId
  let dst_path := stripSlash dst_path
  if (get_id s src_path (some parent)).isNone then (.error .mvSrcNotFound, s)
  else if (get_id s dst_path (some parent)).isSome then (.error .mvDstExists, s)
  else
    match get_parent_id s dst_path (some parent) with
    | .error e => (.error e, s)
    | .ok none => (.error .mvDstParentMissing, s)
    | .ok (some _) =>
      match mkdir s temp_dir_name (some parent) with
      | (.error e, s1) => (.error e, s1)
      | (.ok _, s1) =>
        match get_id s1 src_path (some parent) with
        | none => (.error .notFoundId, s1)
        | some src_id =>
          match get_id s1 temp_dir_name (some parent) with
          | none => (.error .notFoundId, s1)
          | some temp_dest =>
            match copySubtree (s1.entities.length + 1) s1 src_id temp_dest with
            | .error e => (.error e, s1)
            | .ok s2 =>
              match get_id s2 temp_dir_name (some parent) with
              | none => (.error .notFoundId, s2)
              | some temp_dir_id =>
                match mv s2 (basename src_path) (basename dst_path) (some temp_dir_id) with
                | (.error e, s3) => (.error e, s3)
                | (.ok _, s3) =>
                  match mv s3 (temp_dir_name ++ '/' :: basename dst_path) dst_path
                      none with
                  | (.error e, s4) => (.error e, s4)
                  | (.ok _, s4) => rm s4 temp_dir_name (some parent)

/-! ## Local filesystem model

`upload` walks a local file tree (`os.path.isfile` / `os.path.isdir` /
`os.listdir`); the tree reachable from the uploaded local path is modelled
as an inductive tree whose forest keeps `os.listdir` order.  `download`
writes local files and directories; the local filesystem state it touches is
a list of path-keyed entries in creation order. -/

mutual

/-- A local file or directory tree (what `upload` reads). -/
inductive LNode where
  | file : List Nat → LNode
  | dir : LForest → LNode

/-- Named children of a local directory, in `os.listdir` order. -/
inductive LForest where
  | nil : LForest
  | cons : Str → LNode → LForest → LForest

end

/-- One local filesystem entry (what `download` writes). -/
inductive LEntry where
  | lfile : List Nat → LEntry
  | ldir : LEntry
  deriving DecidableEq, Repr

/-- Local filesystem state: entries keyed by full path, in creation order. -/
abbrev LocalFS := List (Str × LEntry)

/-- `os.path.exists` on the modelled local filesystem. -/
def lexists (fs : LocalFS) (p : Str) : Bool :=
  fs.any fun x => decide (x.1 = p)

/-- `os.path.isdir` on the modelled local filesystem. -/
def lisdir (fs : LocalFS) (p : Str) : Bool :=
  fs.any fun x => decide (x.1 = p ∧ x.2 = LEntry.ldir)

/-- `pathlib.Path(p).parent` for the relative paths the embedding uses: the
path without its last slash-separated segment, and the working directory
`"."` for a bare name. -/
def localParent (p : Str) : Str :=
  if '/' ∈ p then dirname p else str "."

/-! ## Uploader -/

/-- `syn.store(File(...))`: overwrite the content of an existing file of
the same name under the parent, refuse to overwrite a non-file, otherwise
append a fresh file entity. -/
def syn_store_file (s : Store) (name : Str) (parent : Nat) (content : List Nat) :
    Except Err Store :=
  match s.entities.find? (fun e => decide (e.name = name ∧ e.parent = some parent)) with
  | some e =>
    if e.ctype = .file then .ok (storeUpdate s { e with content := content })
    else .error .storeTypeClash
  | none => .ok { s with
      entities := s.entities ++
        [{ id := s.nextId, name := name, parent := some parent,
           ctype := .file, content := content }],
      nextId := s.nextId + 1 }

/-- `syn.store(Folder(...))` with the default `createOrUpdate=True`: reuse
an existing folder of the same name under the parent, refuse a non-folder,
otherwise append a fresh folder entity. -/
def syn_store_folder (s : Store) (name : Str) (parent : Nat) :
    Except Err (Nat × Store) :=
  match s.entities.find? (fun e => decide (e.name = name ∧ e.parent = some parent)) with
  | some e => if e.ctype = .folder then .ok (e.id, s) else .error .storeTypeClash
  | none => .ok (s.nextId, { s with
      entities := s.entities ++
        [{ id := s.nextId, name := name, parent := some parent,
           ctype := .folder, content := [] }],
      nextId := s.nextId + 1 })

/-- Containing-folder resolution of `upload`: for a multi-segment remote
path resolve all but the last segment, failing when it is not found; a
single-segment path lives directly under the parent. -/
def uploadContainer (s : Store) (remote_path : Str) (parent : Nat) :
    Except Err Nat :=
  if '/' ∈ remote_path then
    match get_id s (dirname remote_path) (some parent) with
    | none => .error .uploadDirMissing
    | some c => .ok c
  else .ok parent

mutual

/-- `SynapseSession.upload`: strip the leading slash, resolve the containing
folder (failure if missing), then store a file (skipping local names that
start with `.` unless `hidden`) or store a folder and recurse once per local
child, with the child's name as both local and remote leaf. -/
def upload (s : Store) (localName : Str) (node : LNode) (remote_path : Str)
    (parent_id : Option Nat) (hidden : Bool) : Except Err Unit × Store :=
  let parent := parent_id.getD s.projectId
  let remote_path := stripSlash remote_path
  match uploadContainer s remote_path parent with
  | .error e => (.error e, s)
  | .ok container_id =>
    let fname := localName
    match node with
    | .file content =>
      if hidden || !(decide (fname.head? = some '.')) then
        match syn_store_file s (basename remote_path) container_id content with
        | .error e => (.error e, s)
        | .ok s' => (.ok (), s')
      else (.ok (), s)
    | .dir children =>
      match syn_store_folder s (basename remote_path) container_id with
      | .error e => (.error e, s)
      | .ok (fid, s1) => uploadForest s1 children fid hidden

/-- Child loop of `upload`: upload every child under the stored folder. -/
def uploadForest (s : Store) (children : LForest) (fid : Nat) (hidden : Bool) :
    Except Err Unit × Store :=
  match children with
  | .nil => (.ok (), s)
  | .cons f node rest =>
    match upload s f node f (some fid) hidden with
    | (.error e, s') => (.error e, s')
    | (.ok _, s') => uploadForest s' rest fid hidden

end

/-! ## Downloader -/

mutual

/-- `SynapseSession.download`: strip the leading slash; fail if the local
destination exists, if its parent directory is missing, or (after the two
local checks) if the remote path is neither a file nor a folder; fetch a
file's bytes to the destination, or create the destination directory and
recurse once per remote child.  The fuel bounds recursion depth; the store
is read-only throughout. -/
def download (fuel : Nat) (s : Store) (fs : LocalFS) (remote_path : Str)
    (local_path : Str) (parent_id : Option Nat) : Except Err Unit × LocalFS :=
  match fuel with
  | 0 => (.error .fuel, fs)
  | fuel + 1 =>
    let parent := parent_id.getD s.projectId
    let remote_path := stripSlash remote_path
    if lexists fs local_path then (.error .dlLocalExists, fs)
    else if !(lisdir fs (localParent local_path)) then (.error .dlParentMissing, fs)
    else
      match file_exists s remote_path (some parent) with
      | .error e => (.error e, fs)
      | .ok true =>
        match get_id s remote_path (some parent) with
        | none => (.error .notFoundId, fs)
        | some i =>
          match entityById s i with
          | none => (.error .notFoundId, fs)
          | some e => (.ok (), fs ++ [(local_path, .lfile e.content)])
      | .ok false =>
        match dir_exists s remote_path (some parent) with
        | .error e => (.error e, fs)
        | .ok true =>
          let fs1 := fs ++ [(local_path, .ldir)]
          match get_id s remote_path (some parent) with
          | none => (.error .notFoundId, fs1)
          | some rid =>
            downloadChildren fuel s fs1 (getChildren s rid) local_path rid
        | .ok false => (.error .dlInvalidRemote, fs)
termination_by (fuel, 0)

/-- Child loop of `download`: download every remote child below the new
local directory, threading the local filesystem. -/
def downloadChildren (fuel : Nat) (s : Store) (fs : LocalFS)
    (children : List Entity) (local_path : Str) (rid : Nat) :
    Except Err Unit × LocalFS :=
  match children with
  | [] => (.ok (), fs)
  | c :: rest =>
    match download fuel s fs c.name (local_path ++ '/' :: c.name) (some rid) with
    | (.error e, fs') => (.error e, fs')
    | (.ok _, fs') => downloadChildren fuel s fs' rest local_path rid
termination_by (fuel, children.length + 1)

end

mutual

/-- Local filesystem entries `download` materializes for a mirrored tree at
a given local path, in creation (pre-)order: the specification-side image of
a tree on disk. -/
def dlEntries (lp : Str) : LNode → LocalFS
  | .file c => [(lp, .lfile c)]
  | .dir F => (lp, .ldir) :: dlForest lp F

/-- Forest version of `dlEntries`. -/
def dlForest (lp : Str) : LForest → LocalFS
  | .nil => []
  | .cons n t rest => dlEntries (lp ++ '/' :: n) t ++ dlForest lp rest

end

/-! ## Resolver lemmas -/

theorem get_id_slash (s : Store) (p : Option Nat) :
    get_id s (str "/") p = some (p.getD s.projectId) := by
  rw [get_id.eq_def]
  simp

theorem get_id_no_sep {path : Str} (s : Store) (p : Option Nat) (h : '/' ∉ path) :
    get_id s path p = findEntityId s path (p.getD s.projectId) := by
  have hpath : path ≠ str "/" := by
    intro hp
    exact h (by rw [hp]; simp [str])
  rw [get_id.eq_def, if_neg hpath, dif_neg h]

theorem slash_cons_ne_slash {seg rest : Str} (hne : ¬(seg = [] ∧ rest = [])) :
    seg ++ '/' :: rest ≠ str "/" := by
  intro h
  have hlen : seg.length + (rest.length + 1) = 1 := by
    have := congrArg List.length h
    simpa [str] using this
  have h1 : seg.length = 0 := by omega
  have h2 : rest.length = 0 := by omega
  exact hne ⟨List.length_eq_zero.mp h1, List.length_eq_zero.mp h2⟩

theorem get_id_cons {seg rest : Str} (s : Store) (p : Option Nat)
    (hs : '/' ∉ seg) (hne : ¬(seg = [] ∧ rest = [])) :
    get_id s (seg ++ '/' :: rest) p =
      get_id s rest (findEntityId s seg (p.getD s.projectId)) := by
  have hmem : '/' ∈ seg ++ '/' :: rest := by simp
  rw [get_id.eq_def, if_neg (slash_cons_ne_slash hne), dif_pos hmem]
  rw [pySplit_append_sep, pySplit_of_not_mem hs]
  simp [pyJoin_pySplit]

theorem get_id_root (s : Store) (path : Str) :
    get_id s path none = get_id s path (some s.projectId) := by
  conv_lhs => rw [get_id.eq_def]
  conv_rhs => rw [get_id.eq_def]
  rfl

/-- The entity a successful name lookup denotes is present in the store and
carries the looked-up name and parent. -/
theorem findEntityId_spec {s : Store} {n : Str} {p : Nat} {i : Nat}
    (h : findEntityId s n p = some i) :
    ∃ e ∈ s.entities, e.id = i ∧ e.name = n ∧ e.parent = some p := by
  unfold findEntityId at h
  cases hf : s.entities.find? (fun e => decide (e.name = n ∧ e.parent = some p)) with
  | none => rw [hf] at h; simp at h
  | some e =>
    rw [hf] at h
    simp at h
    have hmem := List.mem_of_find?_eq_some hf
    have hpred := List.find?_some hf
    simp at hpred
    exact ⟨e, hmem, h, hpred.1, hpred.2⟩

theorem findEntityId_none_iff {s : Store} {n : Str} {p : Nat} :
    findEntityId s n p = none ↔
      ∀ e ∈ s.entities, ¬(e.name = n ∧ e.parent = some p) := by
  unfold findEntityId
  constructor
  · intro h e hmem hpred
    cases hf : s.entities.find? (fun e => decide (e.name = n ∧ e.parent = some p)) with
    | none =>
      have := List.find?_eq_none.mp hf e hmem
      simp at this
      exact this hpred.1 hpred.2
    | some x => rw [hf] at h; simp at h
  · intro h
    have : s.entities.find? (fun e => decide (e.name = n ∧ e.parent = some p)) = none := by
      apply List.find?_eq_none.mpr
      intro e hmem
      simpa using h e hmem
    rw [this]
    rfl

/-! ## Demonstration store

A small concrete store shared by several explicit-input theorems: the
project root (identifier 1) holds a folder `b` (identifier 2) and a folder
`d` (identifier 3); identifier 5 names no entity and has no children. -/

def demoStore : Store :=
  Store.mk
    [ Entity.mk 1 (str "proj") none .project [],
      Entity.mk 2 (str "b") (some 1) .folder [],
      Entity.mk 3 (str "d") (some 1) .folder [] ] 4 1

/-! ## Claim C10 -/

/-- C10: in `get_id` the substitution of a `None` parent by the project
root happens at every recursion level, so when a multi-segment path's first
segment fails to look up under the given parent, resolution continues on
the remaining segments with the project root as parent. -/
theorem c10_none_parent_becomes_root_at_each_level (s : Store) (seg rest : Str)
    (p : Nat) (hs : '/' ∉ seg) (hne : ¬(seg = [] ∧ rest = []))
    (hmiss : findEntityId s seg p = none) :
    get_id s (seg ++ '/' :: rest) (some p) = get_id s rest (some s.projectId) := by
  rw [get_id_cons s (some p) hs hne]
  simp only [Option.getD_some]
  rw [hmiss, get_id_root]

/-- Witness for C10 at a concrete input: under parent 5 nothing is named
`a`, yet `get_id "a/b"` continues under the project root and returns the
identifier of the root's folder `b` — a non-null answer for a path that
does not exist under parent 5. -/
theorem c10_none_parent_becomes_root_witness :
    findEntityId demoStore (str "a") 5 = none ∧
    get_id demoStore (str "a/b") (some 5) = get_id demoStore (str "b") (some 1) ∧
    get_id demoStore (str "a/b") (some 5) = some 2 := by
  refine ⟨by decide, ?_, ?_⟩
  · have h := c10_none_parent_becomes_root_at_each_level demoStore (str "a") (str "b")
      5 (by decide) (by decide) (by decide)
    simpa [str, demoStore] using h
  · simp [get_id, str, findEntityId, demoStore, pySplit, pyJoin]

/-! ## Claim C1 -/

/-- C1 fails on the code: with parent 5, the lookup of segment `a` returns
null, yet `get_id "a/b"` does not return null — it returns the identifier
of the *root's* folder `b`, an entity that is not at `a/b` under parent 5
(nothing at all lives under parent 5). -/
theorem c1_failed_segment_still_resolves :
    findEntityId demoStore (str "a") 5 = none ∧
    (∀ e ∈ demoStore.entities, e.parent ≠ some 5) ∧
    get_id demoStore (str "a/b") (some 5) = some 2 := by
  refine ⟨by decide, by decide, ?_⟩
  simp [get_id, str, findEntityId, demoStore, pySplit, pyJoin]

/-! ## Claim C6 -/

/-- C6 fails on the code for the empty path: only `"/"` is special-cased,
so the empty path falls through to a by-name lookup of the empty name,
returning null here rather than the parent identifier 5. -/
theorem c6_empty_path_not_parent :
    get_id demoStore ([] : Str) (some 5) = none ∧
    (none : Option Nat) ≠ some 5 := by
  constructor
  · rw [get_id_no_sep demoStore (some 5) (by decide)]
    decide
  · decide

/-- C6 amended: resolution of the path `"/"` returns the parent identifier
unchanged and performs no remote lookup (the recorded lookup trace is
empty); the empty path is not special-cased — it issues a single by-name
lookup with the empty name and returns its result. -/
theorem c6_slash_returns_parent_no_lookup (s : Store) (p : Nat) :
    get_id s (str "/") (some p) = some p ∧
    get_idCalls s (str "/") (some p) = [] ∧
    get_id s ([] : Str) (some p) = findEntityId s [] p ∧
    get_idCalls s ([] : Str) (some p) = [([], p)] := by
  refine ⟨by rw [get_id_slash]; rfl, ?_, ?_, ?_⟩
  · rw [get_idCalls.eq_def]
    simp
  · rw [get_id_no_sep s (some p) (by simp)]
    rfl
  · rw [get_idCalls.eq_def]
    simp [str]

/-! ## Claim C5 -/

theorem exists'_ok_true_iff (s : Store) (path : Str) (cts : List CType)
    (pid : Option Nat) :
    exists' s path cts pid = .ok true ↔
      ∃ i e, get_id s path (some (pid.getD s.projectId)) = some i ∧
        entityById s i = some e ∧ e.ctype ∈ cts := by
  unfold exists' getMeta
  cases hget : get_id s path (some (pid.getD s.projectId)) with
  | none => simp [hget]
  | some i =>
    cases hent : entityById s i with
    | none => simp [hget, hent]
    | some e => simp [hget, hent]

theorem exists'_of_unresolved {s : Store} {path : Str} {cts : List CType}
    {pid : Option Nat} (h : get_id s path (some (pid.getD s.projectId)) = none) :
    exists' s path cts pid = .ok false := by
  unfold exists'
  simp [h]

/-- C5: each existence check returns `true` exactly when the path resolves
(per `get_id`) to an entity whose concrete type lies in the acceptable set —
Folder/Project for `dir_exists`, FileEntity for `file_exists` — and returns
`false` rather than raising whenever the path does not resolve. -/
theorem c5_exists_family_typed (s : Store) (path : Str) (cts : List CType)
    (pid : Option Nat) :
    (exists' s path cts pid = .ok true ↔
      ∃ i e, get_id s path (some (pid.getD s.projectId)) = some i ∧
        entityById s i = some e ∧ e.ctype ∈ cts) ∧
    (get_id s path (some (pid.getD s.projectId)) = none →
      exists' s path cts pid = .ok false) ∧
    (dir_exists s path pid = .ok true ↔
      ∃ i e, get_id s (stripSlash path) (some (pid.getD s.projectId)) = some i ∧
        entityById s i = some e ∧ (e.ctype = .folder ∨ e.ctype = .project)) ∧
    (get_id s (stripSlash path) (some (pid.getD s.projectId)) = none →
      dir_exists s path pid = .ok false) ∧
    (file_exists s path pid = .ok true ↔
      ∃ i e, get_id s (stripSlash path) (some (pid.getD s.projectId)) = some i ∧
        entityById s i = some e ∧ e.ctype = .file) ∧
    (get_id s (stripSlash path) (some (pid.getD s.projectId)) = none →
      file_exists s path pid = .ok false) := by
  refine ⟨exists'_ok_true_iff s path cts pid,
    fun h => exists'_of_unresolved h, ?_,
    fun h => exists'_of_unresolved h, ?_,
    fun h => exists'_of_unresolved h⟩
  · rw [dir_exists, exists'_ok_true_iff]
    simp
  · rw [file_exists, exists'_ok_true_iff]
    simp

/-! ## Claim C3 -/

/-- C3 fails on the code as stated: `mv` checks the *source* first, so with
a destination `d` that already resolves but a source `nope` that does not,
the failure is the NotFound error of the source check, not AlreadyExists
(no mutation happens either way). -/
theorem c3_cex_src_checked_before_dst :
    get_id demoStore (str "d") (some 1) = some 3 ∧
    mv demoStore (str "nope") (str "d") none = (.error .mvSrcNotFound, demoStore) ∧
    Err.mvSrcNotFound ≠ Err.mvDstExists := by
  refine ⟨?_, ?_, by decide⟩
  · rw [get_id_no_sep _ _ (by decide)]
    decide
  · have h1 : get_id demoStore (str "nope") (some demoStore.projectId) = none := by
      rw [get_id_no_sep _ _ (by decide)]
      decide
    unfold mv
    simp [h1]

/-- C3 amended: when the destination already resolves *and the source also
resolves*, `mv` fails with the AlreadyExists error and performs no mutation
of the store; when the source does not resolve it fails with NotFound, also
without mutation. -/
theorem c3_dst_exists_no_mutation (s : Store) (src_path dst_path : Str)
    (pid : Option Nat)
    (hdst : (get_id s (stripSlash dst_path) (some (pid.getD s.projectId))).isSome) :
    (¬ (get_id s src_path (some (pid.getD s.projectId))).isNone →
      mv s src_path dst_path pid = (.error .mvDstExists, s)) ∧
    ((get_id s src_path (some (pid.getD s.projectId))).isNone →
      mv s src_path dst_path pid = (.error .mvSrcNotFound, s)) := by
  constructor
  · intro hsrc
    unfold mv
    simp [hsrc, hdst]
  · intro hsrc
    unfold mv
    simp [hsrc]

/-- Witness for C3's amended claim at a concrete input: moving the existing
folder `b` onto the existing folder `d` fails with the AlreadyExists error
and leaves the store untouched. -/
theorem c3_dst_exists_no_mutation_witness :
    mv demoStore (str "b") (str "d") none = (.error .mvDstExists, demoStore) := by
  have h := c3_dst_exists_no_mutation demoStore (str "b") (str "d") none ?hdst
  case hdst =>
    rw [show stripSlash (str "d") = str "d" from by decide,
      get_id_no_sep _ _ (by decide)]
    decide
  refine h.1 ?_
  rw [get_id_no_sep _ _ (by decide)]
  decide

/-! ## Claim C9 -/

/-- C9: an upload whose multi-segment remote destination has a containing
path that does not resolve fails with the directory-does-not-exist error and
leaves the remote store exactly as it was — in particular it creates no
intermediate remote folders. -/
theorem c9_upload_missing_container_creates_nothing (s : Store) (localName : Str)
    (node : LNode) (remote_path : Str) (pid : Option Nat) (hidden : Bool)
    (hsep : '/' ∈ stripSlash remote_path)
    (hmiss : get_id s (dirname (stripSlash remote_path))
      (some (pid.getD s.projectId)) = none) :
    upload s localName node remote_path pid hidden = (.error .uploadDirMissing, s) := by
  cases node <;> simp [upload, uploadContainer, hsep, hmiss]

/-- Witness for C9 at a concrete input: uploading to `x/y` when `x` does
not exist under the root fails cleanly. -/
theorem c9_upload_missing_container_witness :
    upload demoStore (str "f") (LNode.file [7]) (str "x/y") none false =
      (.error .uploadDirMissing, demoStore) := by
  have hd : dirname (stripSlash (str "x/y")) = str "x" := by decide
  exact c9_upload_missing_container_creates_nothing demoStore (str "f")
    (LNode.file [7]) (str "x/y") none false (by decide)
    (by rw [hd, get_id_no_sep _ _ (by decide)]; decide)

/-! ## Claim C4 -/

/-- C4 fails on the code: because `mkdir`'s already-exists test rides on
`get_id`'s root fallback, `mkdir "a/b"` under parent 5 raises AlreadyExists
even though nothing exists under parent 5 at all (no `a`, hence no `a/b`);
the full target path does not denote an existing folder, yet the call is
rejected and nothing is created. -/
theorem c4_mkdir_alreadyExists_for_missing_path :
    mkdir demoStore (str "a/b") (some 5) = (.error .mkdirAlreadyExists, demoStore) ∧
    findEntityId demoStore (str "a") 5 = none ∧
    (∀ e ∈ demoStore.entities, e.parent ≠ some 5) := by
  refine ⟨?_, by decide, by decide⟩
  simp [mkdir, dir_exists, exists', get_id, getMeta, entityById, str, findEntityId,
    demoStore, pySplit, pyJoin, stripSlash]

/-! ## Claim C8 -/

/-- C8: `download` fails with the typed already-exists error when the local
destination exists (regardless of everything else), then with the typed
parent-missing error when the destination's parent directory is absent, then
with the typed invalid-remote error when the remote path is neither a file
nor a folder — in that order, each before any local write (the local
filesystem is returned unchanged) and before any content fetch (the store is
never written by `download` at all). -/
theorem c8_download_checks_ordered_no_write (fuel : Nat) (s : Store)
    (fs : LocalFS) (remote_path local_path : Str) (pid : Option Nat) :
    (lexists fs local_path = true →
      download (fuel + 1) s fs remote_path local_path pid =
        (.error .dlLocalExists, fs)) ∧
    (lexists fs local_path = false →
      lisdir fs (localParent local_path) = false →
      download (fuel + 1) s fs remote_path local_path pid =
        (.error .dlParentMissing, fs)) ∧
    (lexists fs local_path = false →
      lisdir fs (localParent local_path) = true →
      file_exists s (stripSlash remote_path) (some (pid.getD s.projectId)) = .ok false →
      dir_exists s (stripSlash remote_path) (some (pid.getD s.projectId)) = .ok false →
      download (fuel + 1) s fs remote_path local_path pid =
        (.error .dlInvalidRemote, fs)) := by
  refine ⟨fun h1 => ?_, fun h1 h2 => ?_, fun h1 h2 h3 h4 => ?_⟩
  · rw [download]
    simp [h1]
  · rw [download]
    simp [h1, h2]
  · rw [download]
    simp [h1, h2, h3, h4]

/-- Witness for C8 at concrete inputs: each of the three cases, on the
demonstration store, produces exactly its typed error and an unchanged
local filesystem. -/
theorem c8_download_checks_witness :
    download 1 demoStore [(str "out", LEntry.ldir)] (str "b") (str "out") none =
      (.error .dlLocalExists, [(str "out", LEntry.ldir)]) ∧
    download 1 demoStore [] (str "b") (str "out") none =
      (.error .dlParentMissing, []) ∧
    download 1 demoStore [(str ".", LEntry.ldir)] (str "nope") (str "out") none =
      (.error .dlInvalidRemote, [(str ".", LEntry.ldir)]) := by
  have hnope : get_id demoStore (stripSlash (stripSlash (str "nope")))
      (some (Option.getD none demoStore.projectId)) = none := by
    rw [get_id_no_sep _ _ (by decide)]
    decide
  refine ⟨(c8_download_checks_ordered_no_write 0 demoStore _ _ _ none).1 (by decide),
    (c8_download_checks_ordered_no_write 0 demoStore _ _ _ none).2.1 (by decide) (by decide),
    (c8_download_checks_ordered_no_write 0 demoStore _ _ _ none).2.2 (by decide) (by decide)
      ?_ ?_⟩
  · exact exists'_of_unresolved hnope
  · exact exists'_of_unresolved hnope

/-! ## Segment and basename lemmas -/

theorem pySplit_parts_no_sep {sep : Char} : ∀ {l : Str}, ∀ x ∈ pySplit sep l, sep ∉ x := by
  intro l
  induction l with
  | nil => intro x hx; simp [pySplit] at hx; simp [hx]
  | cons c cs ih =>
    intro x hx
    by_cases hc : c = sep
    · rw [pySplit, if_pos hc] at hx
      rcases List.mem_cons.mp hx with h1 | h2
      · simp [h1]
      · exact ih x h2
    · rw [pySplit, if_neg hc] at hx
      cases hs : pySplit sep cs with
      | nil => exact absurd hs (pySplit_ne_nil sep cs)
      | cons p ps =>
        rw [hs] at hx
        rcases List.mem_cons.mp hx with h1 | h2
        · subst h1
          intro hmem
          rcases List.mem_cons.mp hmem with h3 | h4
          · exact hc h3.symm
          · exact ih p (hs ▸ List.mem_cons_self p ps) h4
        · exact ih x (hs ▸ List.mem_cons_of_mem p h2)

theorem getLastD_mem {α} : ∀ {l : List α}, l ≠ [] → ∀ d, l.getLastD d ∈ l := by
  intro l
  induction l with
  | nil => intro h; exact absurd rfl h
  | cons a t ih =>
    intro _ d
    cases ht : t with
    | nil => simp [List.getLastD]
    | cons b u =>
      have := ih (by simp [ht]) a
      rw [← ht, List.getLastD_cons]
      exact List.mem_cons_of_mem a (ht ▸ this)

theorem getLastD_irrel {α} {l : List α} (h : l ≠ []) (d d' : α) :
    l.getLastD d = l.getLastD d' := by
  cases l with
  | nil => exact absurd rfl h
  | cons a t => rw [List.getLastD_cons, List.getLastD_cons]

theorem basename_no_sep (p : Str) : '/' ∉ basename p :=
  pySplit_parts_no_sep (basename p) (getLastD_mem (pySplit_ne_nil '/' p) [])

theorem basename_ne_slash (p : Str) : basename p ≠ str "/" := by
  intro h
  have := basename_no_sep p
  rw [h] at this
  simp [str] at this

theorem pyJoin_cons {sep : Char} {parts : List Str} (h : parts ≠ []) (a : Str) :
    pyJoin sep (a :: parts) = a ++ sep :: pyJoin sep parts := by
  cases parts with
  | nil => exact absurd rfl h
  | cons b t => rfl

theorem pySplit_pyJoin {sep : Char} : ∀ {parts : List Str}, parts ≠ [] →
    (∀ x ∈ parts, sep ∉ x) → pySplit sep (pyJoin sep parts) = parts := by
  intro parts
  induction parts with
  | nil => intro h; exact absurd rfl h
  | cons a t ih =>
    intro _ hx
    cases t with
    | nil => exact pySplit_of_not_mem (hx a (by simp))
    | cons b u =>
      rw [pyJoin_cons (by simp) a, pySplit_append_sep,
        pySplit_of_not_mem (hx a (by simp)),
        ih (by simp) (fun y hy => hx y (List.mem_cons_of_mem a hy))]
      simp

theorem basename_append_single {a b : Str} (ha : '/' ∉ a) (hb : '/' ∉ b) :
    basename (a ++ '/' :: b) = b := by
  rw [basename, pySplit_append_sep, pySplit_of_not_mem ha, pySplit_of_not_mem hb]
  simp [List.getLastD_cons]

/-! ## Resolution decomposition

Resolution of a multi-segment path factors through resolution of its
containing path: the final step is a single lookup of the basename under
the (fallback-substituted) result for the dirname.  The side condition
rules out empty non-final segments (paths with `//` inside), where the
string-level dirname loses the structure of the original path. -/

theorem get_id_decomp (s : Store) :
    ∀ (path : Str) (p : Option Nat), '/' ∈ path →
      [] ∉ (pySplit '/' path).dropLast →
      get_id s path p = findEntityId s (basename path)
        ((get_id s (dirname path) p).getD s.projectId) := by
  suffices H : ∀ (n : Nat) (path : Str) (p : Option Nat), path.length ≤ n →
      '/' ∈ path → [] ∉ (pySplit '/' path).dropLast →
      get_id s path p = findEntityId s (basename path)
        ((get_id s (dirname path) p).getD s.projectId) by
    intro path p h1 h2
    exact H path.length path p le_rfl h1 h2
  intro n
  induction n with
  | zero =>
    intro path p hlen hmem _
    rw [List.length_eq_zero.mp (Nat.le_zero.mp hlen)] at hmem
    simp at hmem
  | succ n ih =>
    intro path p hlen hmem hseg
    cases hsplit : pySplit '/' path with
    | nil => exact absurd hsplit (pySplit_ne_nil '/' path)
    | cons seg parts =>
      have hparts : parts ≠ [] := by
        have := two_le_length_pySplit hmem
        rw [hsplit] at this
        simp at this
        exact List.ne_nil_of_length_pos (by omega)
      have hsegns : '/' ∉ seg :=
        pySplit_parts_no_sep seg (hsplit ▸ List.mem_cons_self seg parts)
      have hpartsns : ∀ x ∈ parts, '/' ∉ x :=
        fun x hx => pySplit_parts_no_sep x (hsplit ▸ List.mem_cons_of_mem seg hx)
      have hsegne : seg ≠ [] := by
        intro h
        apply hseg
        rw [hsplit, List.dropLast_cons_of_ne_nil hparts]
        exact h ▸ List.mem_cons_self [] _
      have hpath : path = seg ++ '/' :: pyJoin '/' parts := by
        conv_lhs => rw [← pyJoin_pySplit '/' path, hsplit, pyJoin_cons hparts]
      have hsplitrest : pySplit '/' (pyJoin '/' parts) = parts :=
        pySplit_pyJoin hparts hpartsns
      have hrestlen : (pyJoin '/' parts).length ≤ n := by
        have h1 : (pyJoin '/' (pySplit '/' path).tail).length < path.length :=
          length_pyJoin_tail_lt hmem
        rw [hsplit] at h1
        simp only [List.tail_cons] at h1
        omega
      have hcons : get_id s path p =
          get_id s (pyJoin '/' parts) (findEntityId s seg (p.getD s.projectId)) := by
        rw [hpath]
        exact get_id_cons s p hsegns (fun hc => hsegne hc.1)
      by_cases hmr : '/' ∈ pyJoin '/' parts
      · -- the containing path itself has more than one segment
        have hpdl : parts.dropLast ≠ [] := by
          have h2 := two_le_length_pySplit hmr
          rw [hsplitrest] at h2
          intro hd
          have h3 := congrArg List.length hd
          simp at h3
          omega
        have hsegrest : [] ∉ (pySplit '/' (pyJoin '/' parts)).dropLast := by
          intro hc
          apply hseg
          rw [hsplit, List.dropLast_cons_of_ne_nil hparts]
          rw [hsplitrest] at hc
          exact List.mem_cons_of_mem seg hc
        have hbn : basename path = basename (pyJoin '/' parts) := by
          rw [basename, hsplit, List.getLastD_cons, basename, hsplitrest]
          exact getLastD_irrel hparts seg []
        have hdn : dirname path = seg ++ '/' :: dirname (pyJoin '/' parts) := by
          rw [dirname, hsplit, List.dropLast_cons_of_ne_nil hparts, dirname, hsplitrest]
          exact pyJoin_cons hpdl seg
        rw [hcons, ih (pyJoin '/' parts) _ hrestlen hmr hsegrest, hbn, hdn,
          get_id_cons s p hsegns (fun hc => hsegne hc.1)]
      · -- the containing path is the single first segment
        have hparts1 : parts = [pyJoin '/' parts] :=
          hsplitrest.symm.trans (pySplit_of_not_mem hmr)
        have hbn : basename path = pyJoin '/' parts := by
          rw [basename, hsplit]
          conv_lhs => rw [hparts1]
          simp [List.getLastD_cons]
        have hdn : dirname path = seg := by
          rw [dirname, hsplit]
          conv_lhs => rw [hparts1]
          simp [pyJoin]
        rw [hcons, hbn, hdn, get_id_no_sep s _ hmr, get_id_no_sep s _ hsegns]

/-! ## Store growth during bulk copy -/

/-- What `copySubtree`/`copyChildren` do to the store: append entities whose
parents are the copy destination or freshly allocated identifiers, with all
new identifiers fresh; identifier distinctness and bounds are preserved. -/
def Grows (s : Store) (d : Nat) (s' : Store) : Prop :=
  s'.projectId = s.projectId ∧ s.nextId ≤ s'.nextId ∧
  (∃ Δ, s'.entities = s.entities ++ Δ ∧
    ∀ e ∈ Δ, (e.parent = some d ∨
        ∃ q, e.parent = some q ∧ s.nextId ≤ q ∧ q < s'.nextId) ∧
      s.nextId ≤ e.id ∧ e.id < s'.nextId) ∧
  ((∀ e ∈ s.entities, e.id < s.nextId) → (s.entities.map (·.id)).Nodup →
    (∀ e ∈ s'.entities, e.id < s'.nextId) ∧ (s'.entities.map (·.id)).Nodup)

theorem Grows.refl' (s : Store) (d : Nat) : Grows s d s :=
  ⟨rfl, le_rfl, ⟨[], by simp⟩, fun h1 h2 => ⟨h1, h2⟩⟩

theorem Grows.single (s : Store) (d : Nat) (name : Str) (t : CType) (c : List Nat) :
    Grows s d { s with
      entities := s.entities ++ [⟨s.nextId, name, some d, t, c⟩],
      nextId := s.nextId + 1 } := by
  refine ⟨rfl, by simp, ⟨[⟨s.nextId, name, some d, t, c⟩], rfl, ?_⟩, ?_⟩
  · intro e he
    simp at he
    subst he
    exact ⟨Or.inl rfl, le_rfl, by simp⟩
  · intro h1 h2
    constructor
    · intro e he
      simp at he
      rcases he with he | he
      · exact Nat.lt_succ_of_lt (h1 e he)
      · subst he; simp
    · simp only [List.map_append, List.map_cons, List.map_nil]
      rw [List.nodup_append]
      refine ⟨h2, List.nodup_singleton _, ?_⟩
      intro a ha hb
      simp at hb
      obtain ⟨e, he, hea⟩ := List.mem_map.mp ha
      have := h1 e he
      omega

theorem Grows.trans' {s s₁ s₂ : Store} {d : Nat}
    (h₁ : Grows s d s₁) (h₂ : Grows s₁ d s₂) : Grows s d s₂ := by
  obtain ⟨hp₁, hn₁, ⟨Δ₁, he₁, hΔ₁⟩, hw₁⟩ := h₁
  obtain ⟨hp₂, hn₂, ⟨Δ₂, he₂, hΔ₂⟩, hw₂⟩ := h₂
  refine ⟨hp₂.trans hp₁, hn₁.trans hn₂, ⟨Δ₁ ++ Δ₂, by rw [he₂, he₁, List.append_assoc], ?_⟩, ?_⟩
  · intro e he
    rcases List.mem_append.mp he with he | he
    · obtain ⟨hpar, hid1, hid2⟩ := hΔ₁ e he
      refine ⟨?_, hid1, lt_of_lt_of_le hid2 hn₂⟩
      rcases hpar with h | ⟨q, hq1, hq2, hq3⟩
      · exact Or.inl h
      · exact Or.inr ⟨q, hq1, hq2, lt_of_lt_of_le hq3 hn₂⟩
    · obtain ⟨hpar, hid1, hid2⟩ := hΔ₂ e he
      refine ⟨?_, le_trans hn₁ hid1, hid2⟩
      rcases hpar with h | ⟨q, hq1, hq2, hq3⟩
      · exact Or.inl h
      · exact Or.inr ⟨q, hq1, le_trans hn₁ hq2, hq3⟩
  · intro hb hnd
    obtain ⟨hb₁, hnd₁⟩ := hw₁ hb hnd
    exact hw₂ hb₁ hnd₁

theorem Grows.compose_new {s s₁ s₂ : Store} {d d' : Nat}
    (h₁ : Grows s d s₁) (hd₁ : s.nextId ≤ d') (hd₂ : d' < s₁.nextId)
    (h₂ : Grows s₁ d' s₂) : Grows s d s₂ := by
  obtain ⟨hp₁, hn₁, ⟨Δ₁, he₁, hΔ₁⟩, hw₁⟩ := h₁
  obtain ⟨hp₂, hn₂, ⟨Δ₂, he₂, hΔ₂⟩, hw₂⟩ := h₂
  refine ⟨hp₂.trans hp₁, hn₁.trans hn₂,
    ⟨Δ₁ ++ Δ₂, by rw [he₂, he₁, List.append_assoc], ?_⟩, ?_⟩
  · intro e he
    rcases List.mem_append.mp he with he | he
    · obtain ⟨hpar, hid1, hid2⟩ := hΔ₁ e he
      refine ⟨?_, hid1, lt_of_lt_of_le hid2 hn₂⟩
      rcases hpar with h | ⟨q, hq1, hq2, hq3⟩
      · exact Or.inl h
      · exact Or.inr ⟨q, hq1, hq2, lt_of_lt_of_le hq3 hn₂⟩
    · obtain ⟨hpar, hid1, hid2⟩ := hΔ₂ e he
      refine ⟨?_, le_trans hn₁ hid1, hid2⟩
      rcases hpar with h | ⟨q, hq1, hq2, hq3⟩
      · exact Or.inr ⟨d', h ▸ rfl, hd₁, lt_of_lt_of_le hd₂ hn₂⟩
      · exact Or.inr ⟨q, hq1, le_trans hn₁ hq2, hq3⟩
  · intro hb hnd
    obtain ⟨hb₁, hnd₁⟩ := hw₁ hb hnd
    exact hw₂ hb₁ hnd₁

/-- Joint growth property of the bulk-copy pair, by induction on the fuel. -/
theorem copy_grows : ∀ fuel : Nat,
    (∀ s i d s', copySubtree fuel s i d = .ok s' → Grows s d s') ∧
    (∀ s ids d s', copyChildren fuel s ids d = .ok s' → Grows s d s') := by
  intro fuel
  induction fuel with
  | zero =>
    constructor
    · intro s i d s' h
      rw [copySubtree] at h
      simp at h
    · intro s ids d s' h
      cases ids with
      | nil =>
        rw [copyChildren] at h
        simp at h
        exact h ▸ Grows.refl' s d
      | cons i rest =>
        rw [copyChildren, copySubtree] at h
        simp at h
  | succ n ihn =>
    have hsub : ∀ s i d s', copySubtree (n + 1) s i d = .ok s' → Grows s d s' := by
      intro s i d s' h
      rw [copySubtree] at h
      cases hent : entityById s i with
      | none => rw [hent] at h; simp at h
      | some e =>
        rw [hent] at h
        simp only at h
        cases hct : e.ctype with
        | folder =>
          rw [hct] at h
          have hg := ihn.2 _ _ _ _ h
          exact Grows.compose_new (Grows.single s d e.name CType.folder e.content)
            le_rfl (by simp) hg
        | file =>
          rw [hct] at h
          simp at h
          exact h ▸ Grows.single s d e.name CType.file e.content
        | project =>
          rw [hct] at h
          simp at h
          exact h ▸ Grows.single s d e.name CType.project e.content
    refine ⟨hsub, ?_⟩
    intro s ids d s'
    induction ids generalizing s with
    | nil =>
      intro h
      rw [copyChildren] at h
      simp at h
      exact h ▸ Grows.refl' s d
    | cons i rest ihr =>
      intro h
      rw [copyChildren] at h
      cases hcs : copySubtree (n + 1) s i d with
      | error e => rw [hcs] at h; simp at h
      | ok s₁ =>
        rw [hcs] at h
        simp only at h
        exact Grows.trans' (hsub _ _ _ _ hcs) (ihr s₁ h)

/-! ## Success shapes of mkdir, mv, rm -/

/-- A successful `mkdir` of a single-segment (slash-free) path appends
exactly one fresh folder under the parent, and the name was free before. -/
theorem mkdir_single_ok {s : Store} {temp : Str} {p : Nat} {c : Option Nat}
    {s₁ : Store} (htemp : '/' ∉ temp)
    (h : mkdir s temp (some p) = (.ok c, s₁)) :
    findEntityId s temp p = none ∧ c = some s.nextId ∧
    s₁ = { s with entities := s.entities ++
      [⟨s.nextId, temp, some p, .folder, []⟩], nextId := s.nextId + 1 } := by
  rw [mkdir] at h
  simp only [Option.getD_some, stripSlash_of_not_mem htemp,
    pySplit_of_not_mem htemp, List.head!_cons, List.length_singleton] at h
  cases hde : dir_exists s temp (some p) with
  | error e => rw [hde] at h; simp at h
  | ok b =>
    cases b with
    | true => rw [hde] at h; simp at h
    | false =>
      rw [hde] at h
      simp only at h
      cases hcf : createFolderStrict s temp p with
      | error e => rw [hcf] at h; simp at h
      | ok is' =>
        obtain ⟨i2, s2⟩ := is'
        rw [hcf] at h
        simp only [Prod.mk.injEq, Except.ok.injEq] at h
        rw [dif_pos trivial] at h
        simp only [Prod.mk.injEq, Except.ok.injEq] at h
        unfold createFolderStrict at hcf
        cases hfe : findEntityId s temp p with
        | some j => rw [hfe] at hcf; simp at hcf
        | none =>
          rw [hfe] at hcf
          injection hcf with hcf1
          injection hcf1 with ha hb
          refine ⟨rfl, ?_, ?_⟩
          · rw [← h.1, ← ha]
          · rw [← h.2, ← hb]

/-- A successful `rm` resolves the path and deletes the resolved entity. -/
theorem rm_ok_shape {s s' : Store} {path : Str} {pid : Option Nat} {u : Unit}
    (h : rm s path pid = (.ok u, s')) :
    ∃ i, get_id s (stripSlash path) (some (pid.getD s.projectId)) = some i ∧
      s' = deleteEntity s i := by
  have hdef : rm s path pid =
      (match get_id s (stripSlash path) (some (pid.getD s.projectId)) with
        | none => (Except.error Err.rmNotFound, s)
        | some i => (Except.ok (), deleteEntity s i)) := rfl
  rw [hdef] at h
  split at h
  · exact absurd h (by simp)
  · rename_i i hg
    simp only [Prod.mk.injEq] at h
    exact ⟨i, hg, h.2.symm⟩

theorem entityById_spec {s : Store} {i : Nat} {e : Entity}
    (h : entityById s i = some e) : e ∈ s.entities ∧ e.id = i := by
  unfold entityById at h
  exact ⟨List.mem_of_find?_eq_some h, by simpa using List.find?_some h⟩

/-- What a successful `mv` did: its three checks passed, and the store is
the old one with exactly the entities of the moved identifier re-parented
to the destination container and renamed to the destination's basename —
identifiers, their order, the counter and the project are untouched. -/
theorem mv_ok_mem {s s' : Store} {src dst : Str} {pid : Option Nat} {u : Unit}
    (h : mv s src dst pid = (.ok u, s')) :
    ∃ j c, get_id s src (some (pid.getD s.projectId)) = some j ∧
      get_id s (stripSlash dst) (some (pid.getD s.projectId)) = none ∧
      get_parent_id s (stripSlash dst) (some (pid.getD s.projectId)) = .ok (some c) ∧
      s'.nextId = s.nextId ∧ s'.projectId = s.projectId ∧
      s'.entities.map (·.id) = s.entities.map (·.id) ∧
      (∀ x ∈ s'.entities, (x ∈ s.entities ∧ x.id ≠ j) ∨
        (x.id = j ∧ x.name = basename (stripSlash dst) ∧ x.parent = some c)) ∧
      (∀ y ∈ s.entities, y.id ≠ j → y ∈ s'.entities) := by
  have hdef : mv s src dst pid =
      (if (get_id s src (some (pid.getD s.projectId))).isNone then
        (Except.error Err.mvSrcNotFound, s)
      else if (get_id s (stripSlash dst) (some (pid.getD s.projectId))).isSome then
        (Except.error Err.mvDstExists, s)
      else
        match get_parent_id s (stripSlash dst) (some (pid.getD s.projectId)) with
        | .error e => (.error e, s)
        | .ok none => (.error .mvDstParentMissing, s)
        | .ok (some dst_parent) =>
          match get_id s src (some (pid.getD s.projectId)) with
          | none => (.error .notFoundId, s)
          | some src_id =>
            match syn_move s src_id dst_parent with
            | .error e => (.error e, s)
            | .ok s1 =>
              match getMeta s1 src_id with
              | .error e => (.error e, s1)
              | .ok e => (.ok (), storeUpdate s1
                  { e with name := basename (stripSlash dst) })) := rfl
  rw [hdef] at h
  clear hdef
  split at h
  · simp at h
  · rename_i hsrcn
    split at h
    · simp at h
    · rename_i hdsts
      split at h
      · simp at h
      · simp at h
      · rename_i c hgp
        split at h
        · simp at h
        · rename_i j hgs
          split at h
          · simp at h
          · rename_i s₁ hmove
            split at h
            · simp at h
            · rename_i e₁ hmeta
              simp only [Prod.mk.injEq, true_and] at h
              -- dissect syn_move and getMeta
              unfold syn_move at hmove
              cases hent : entityById s j with
              | none => rw [hent] at hmove; simp at hmove
              | some e₀ =>
                rw [hent] at hmove
                simp only [Except.ok.injEq] at hmove
                unfold getMeta at hmeta
                cases hent1 : entityById s₁ j with
                | none => rw [hent1] at hmeta; simp at hmeta
                | some e₁' =>
                  rw [hent1] at hmeta
                  simp only [Except.ok.injEq] at hmeta
                  subst hmeta
                  obtain ⟨he₁mem, he₁id⟩ := entityById_spec hent1
                  have hs₁e : s₁.entities = List.map
                      (fun e => if e.id = j then { e with parent := some c } else e)
                      s.entities := by rw [← hmove]
                  have hs₁n : s₁.nextId = s.nextId := by rw [← hmove]
                  have hs₁p : s₁.projectId = s.projectId := by rw [← hmove]
                  have hs'e : s'.entities = List.map
                      (fun e => if e.id = e₁'.id then
                        { e₁' with name := basename (stripSlash dst) } else e)
                      s₁.entities := by rw [← h]; rfl
                  have hs'n : s'.nextId = s₁.nextId := by rw [← h]; rfl
                  have hs'p : s'.projectId = s₁.projectId := by rw [← h]; rfl
                  have he₁par : e₁'.parent = some c := by
                    have hmem1 : e₁' ∈ s₁.entities := he₁mem
                    rw [hs₁e] at hmem1
                    obtain ⟨y', hy', hy'z⟩ := List.mem_map.mp hmem1
                    by_cases hy'j : y'.id = j
                    · rw [if_pos hy'j] at hy'z
                      rw [← hy'z]
                    · rw [if_neg hy'j] at hy'z
                      rw [hy'z] at hy'j
                      exact absurd he₁id hy'j
                  refine ⟨j, c, hgs, ?_, hgp, hs'n.trans hs₁n, hs'p.trans hs₁p,
                    ?_, ?_, ?_⟩
                  · cases hg : get_id s (stripSlash dst) (some (pid.getD s.projectId)) with
                    | none => rfl
                    | some k => rw [hg] at hdsts; simp at hdsts
                  · rw [hs'e, hs₁e, List.map_map, List.map_map]
                    apply List.map_congr_left
                    intro a _
                    by_cases ha : a.id = j
                    · simp [Function.comp, ha, he₁id]
                    · simp [Function.comp, ha, he₁id]
                  · -- forward membership
                    intro x hx
                    rw [hs'e] at hx
                    obtain ⟨z, hz, hzx⟩ := List.mem_map.mp hx
                    rw [hs₁e] at hz
                    obtain ⟨y, hy, hyz⟩ := List.mem_map.mp hz
                    by_cases hyj : y.id = j
                    · right
                      have hzid : z.id = j := by rw [← hyz]; simp [hyj]
                      rw [if_pos (by rw [hzid, he₁id])] at hzx
                      rw [← hzx]
                      exact ⟨he₁id, rfl, he₁par⟩
                    · left
                      have hyzy : z = y := by rw [← hyz, if_neg hyj]
                      have hzid : z.id ≠ j := by rw [hyzy]; exact hyj
                      rw [if_neg (by rw [he₁id]; exact hzid)] at hzx
                      rw [← hzx, hyzy]
                      exact ⟨hy, hyj⟩
                  · -- backward membership
                    intro y hy hyj
                    rw [hs'e]
                    refine List.mem_map.mpr ⟨y, ?_, ?_⟩
                    · rw [hs₁e]
                      exact List.mem_map.mpr ⟨y, hy, by rw [if_neg hyj]⟩
                    · rw [if_neg (by rw [he₁id]; exact hyj)]

/-- When every entity with the given name and parent carries identifier `i`
and one such entity exists, the by-name lookup returns `i`. -/
theorem findEntityId_of_unique {s : Store} {n : Str} {p i : Nat}
    (hex : ∃ e ∈ s.entities, e.name = n ∧ e.parent = some p)
    (huniq : ∀ e ∈ s.entities, (e.name = n ∧ e.parent = some p) → e.id = i) :
    findEntityId s n p = some i := by
  unfold findEntityId
  cases hf : s.entities.find? (fun e => decide (e.name = n ∧ e.parent = some p)) with
  | none =>
    obtain ⟨e, hmem, hpred⟩ := hex
    have := List.find?_eq_none.mp hf e hmem
    simp at this
    exact absurd hpred.2 (this hpred.1)
  | some e =>
    have hpred := List.find?_some hf
    simp at hpred
    have hmem := List.mem_of_find?_eq_some hf
    simp [huniq e hmem hpred]

theorem mem_doomedFrom_self (ents : List Entity) :
    ∀ (n : Nat) (acc : List Nat), ∀ x ∈ acc, x ∈ doomedFrom ents n acc := by
  intro n
  induction n with
  | zero => intro acc x hx; simpa [doomedFrom] using hx
  | succ m ih =>
    intro acc x hx
    rw [doomedFrom]
    exact ih (expandDoomed ents acc) x (by unfold expandDoomed; exact List.mem_append_left _ hx)

theorem mem_deleteEntity {s : Store} {i : Nat} {x : Entity}
    (h : x ∈ (deleteEntity s i).entities) : x ∈ s.entities ∧ x.id ≠ i := by
  unfold deleteEntity at h
  simp only [List.mem_filter, Bool.not_eq_eq_eq_not, Bool.not_true] at h
  obtain ⟨hmem, hcon⟩ := h
  refine ⟨hmem, fun hxi => ?_⟩
  have hin : i ∈ doomedFrom s.entities s.entities.length [i] :=
    mem_doomedFrom_self s.entities s.entities.length [i] i (by simp)
  rw [hxi] at hcon
  have htrue : (doomedFrom s.entities s.entities.length [i]).contains i = true := by
    rw [List.contains_iff_exists_mem_beq]
    exact ⟨i, hin, by simp⟩
  rw [hcon] at htrue
  simp at htrue

theorem findEntityId_map_none {s : Store} {n : Str} {p : Nat}
    (h : findEntityId s n p = none) :
    s.entities.find? (fun e => decide (e.name = n ∧ e.parent = some p)) = none := by
  unfold findEntityId at h
  exact Option.map_eq_none'.mp h

theorem get_parent_id_no_sep {s : Store} {path : Str} (p : Nat) (h : '/' ∉ path) :
    get_parent_id s path (some p) = .ok (some p) := by
  have hne : path ≠ str "/" := fun hp => h (by rw [hp]; simp [str])
  have hdef : get_parent_id s path (some p) =
      (if path = str "/" ∧ p = s.projectId then .error .projectNoParent
       else if '/' ∈ path then .ok (get_id s (dirname path) (some p))
       else .ok (some p)) := rfl
  rw [hdef, if_neg (fun hc => hne hc.1), if_neg h]

theorem get_parent_id_sep {s : Store} {path : Str} {p c : Nat} (hm : '/' ∈ path)
    (h : get_parent_id s path (some p) = .ok (some c)) :
    get_id s (dirname path) (some p) = some c := by
  have hdef : get_parent_id s path (some p) =
      (if path = str "/" ∧ p = s.projectId then .error .projectNoParent
       else if '/' ∈ path then .ok (get_id s (dirname path) (some p))
       else .ok (some p)) := rfl
  by_cases hc : path = str "/" ∧ p = s.projectId
  · rw [hdef, if_pos hc] at h
    simp at h
  · rw [hdef, if_neg hc, if_pos hm] at h
    simpa using h

/-! ## Claim C2, amended part -/

/-- C2 amended: on every invocation of `cp` that returns normally, the
temporary staging folder is gone from the final store: no entity named
after it remains under the operation's parent.  (The failure paths may leave
it behind — see the counterexample.)  The hypotheses say the store is
well-formed (distinct, bounded identifiers, bounded parent links), the
caller's parent identifier is a real one, the randomized staging name is a
plain name without separators, and the destination path has no empty
intermediate segment. -/
theorem c2_cp_success_deletes_staging (s s' : Store) (src dst temp : Str)
    (pid : Option Nat) (u : Unit)
    (hno : (s.entities.map (·.id)).Nodup)
    (hid : ∀ e ∈ s.entities, e.id < s.nextId)
    (hpb : ∀ e ∈ s.entities, ∀ q, e.parent = some q → q < s.nextId)
    (hpar : pid.getD s.projectId < s.nextId)
    (htemp : '/' ∉ temp) (htne : temp ≠ [])
    (hseg : [] ∉ (pySplit '/' (stripSlash (stripSlash dst))).dropLast)
    (hcp : cp s src dst pid temp = (.ok u, s')) :
    ∀ e ∈ s'.entities, ¬(e.name = temp ∧ e.parent = some (pid.getD s.projectId)) := by
  have hdef : cp s src dst pid temp =
      (if (get_id s src (some (pid.getD s.projectId))).isNone then
        (Except.error Err.mvSrcNotFound, s)
      else if (get_id s (stripSlash dst) (some (pid.getD s.projectId))).isSome then
        (Except.error Err.mvDstExists, s)
      else
        match get_parent_id s (stripSlash dst) (some (pid.getD s.projectId)) with
        | .error e => (.error e, s)
        | .ok none => (.error .mvDstParentMissing, s)
        | .ok (some _) =>
          match mkdir s temp (some (pid.getD s.projectId)) with
          | (.error e, s1) => (.error e, s1)
          | (.ok _, s1) =>
            match get_id s1 src (some (pid.getD s.projectId)) with
            | none => (.error .notFoundId, s1)
            | some src_id =>
              match get_id s1 temp (some (pid.getD s.projectId)) with
              | none => (.error .notFoundId, s1)
              | some temp_dest =>
                match copySubtree (s1.entities.length + 1) s1 src_id temp_dest with
                | .error e => (.error e, s1)
                | .ok s2 =>
                  match get_id s2 temp (some (pid.getD s.projectId)) with
                  | none => (.error .notFoundId, s2)
                  | some temp_dir_id =>
                    match mv s2 (basename src) (basename (stripSlash dst))
                        (some temp_dir_id) with
                    | (.error e, s3) => (.error e, s3)
                    | (.ok _, s3) =>
                      match mv s3 (temp ++ '/' :: basename (stripSlash dst))
                          (stripSlash dst) none with
                      | (.error e, s4) => (.error e, s4)
                      | (.ok _, s4) => rm s4 temp (some (pid.getD s.projectId))) := rfl
  rw [hdef] at hcp
  clear hdef
  split at hcp
  · simp at hcp
  split at hcp
  · simp at hcp
  split at hcp
  · simp at hcp
  · simp at hcp
  rename_i dp hgp
  split at hcp
  · simp at hcp
  rename_i c₀ s1 hmk
  split at hcp
  · simp at hcp
  rename_i src_id hg1
  split at hcp
  · simp at hcp
  rename_i temp_dest hg2
  split at hcp
  · simp at hcp
  rename_i s2 hcopy
  split at hcp
  · simp at hcp
  rename_i temp_dir_id hg3
  split at hcp
  · simp at hcp
  rename_i u3 s3 hmv1
  split at hcp
  · simp at hcp
  rename_i u4 s4 hmv2
  obtain ⟨hfnone, hc₀, hs1⟩ := mkdir_single_ok htemp hmk
  -- short names used throughout
  have hents1 : s1.entities = s.entities ++
      [⟨s.nextId, temp, some (pid.getD s.projectId), CType.folder, []⟩] := by rw [hs1]
  have hnext1 : s1.nextId = s.nextId + 1 := by rw [hs1]
  have htE1 : (⟨s.nextId, temp, some (pid.getD s.projectId), CType.folder, []⟩ : Entity)
      ∈ s1.entities := by rw [hents1]; simp
  -- the by-name lookup of the staging name now finds exactly the new folder
  have hfind1 : findEntityId s1 temp (pid.getD s.projectId) = some s.nextId := by
    unfold findEntityId
    rw [hents1, List.find?_append, findEntityId_map_none hfnone]
    simp
  have hg2' : temp_dest = s.nextId := by
    rw [get_id_no_sep s1 _ htemp] at hg2
    simp only [Option.getD_some] at hg2
    rw [hfind1] at hg2
    exact (Option.some.injEq ..).mp hg2.symm
  subst hg2'
  -- bulk copy only appends entities under the staging folder or deeper
  have hgrow := (copy_grows (s1.entities.length + 1)).1 _ _ _ _ hcopy
  obtain ⟨hgproj, hgnext, ⟨Δ, hents2, hΔ⟩, hgwf⟩ := hgrow
  have hbound1 : ∀ e ∈ s1.entities, e.id < s1.nextId := by
    rw [hents1, hnext1]
    intro e he
    rcases List.mem_append.mp he with he | he
    · exact Nat.lt_succ_of_lt (hid e he)
    · simp at he; subst he; simp
  have hno1 : (s1.entities.map (·.id)).Nodup := by
    rw [hents1]
    simp only [List.map_append, List.map_cons, List.map_nil]
    rw [List.nodup_append]
    refine ⟨hno, List.nodup_singleton _, ?_⟩
    intro a ha hb
    simp at hb
    obtain ⟨e, he, hea⟩ := List.mem_map.mp ha
    have := hid e he
    omega
  obtain ⟨hbound2, hno2⟩ := hgwf hbound1 hno1
  have htE2 : (⟨s.nextId, temp, some (pid.getD s.projectId), CType.folder, []⟩ : Entity)
      ∈ s2.entities := by rw [hents2]; exact List.mem_append_left _ htE1
  -- every entity named like the staging folder under the parent has its id
  have hA2 : ∀ e ∈ s2.entities,
      (e.name = temp ∧ e.parent = some (pid.getD s.projectId)) → e.id = s.nextId := by
    intro e he hpred
    rw [hents2] at he
    rcases List.mem_append.mp he with he | he
    · rw [hents1] at he
      rcases List.mem_append.mp he with he | he
      · exact absurd hpred ((findEntityId_none_iff.mp hfnone) e he)
      · simp at he; subst he; rfl
    · obtain ⟨hpar', _, _⟩ := hΔ e he
      rcases hpar' with hp' | ⟨q, hq1, hq2, _⟩
      · rw [hpred.2] at hp'
        simp at hp'
        omega
      · rw [hpred.2] at hq1
        simp at hq1
        rw [hnext1] at hq2
        omega
  have hfind2 : findEntityId s2 temp (pid.getD s.projectId) = some s.nextId :=
    findEntityId_of_unique ⟨_, htE2, rfl, rfl⟩ hA2
  have hg3' : temp_dir_id = s.nextId := by
    rw [get_id_no_sep s2 _ htemp] at hg3
    simp only [Option.getD_some] at hg3
    rw [hfind2] at hg3
    exact (Option.some.injEq ..).mp hg3.symm
  subst hg3'
  -- first internal mv: renames the copy inside the staging folder
  obtain ⟨j₁, c₁, hj₁, hd₁, hgp₁, hn₃, hp₃, hids₃, hmem₃, hback₃⟩ := mv_ok_mem hmv1
  simp only [Option.getD_some] at hj₁ hd₁ hgp₁
  have hPne : pid.getD s.projectId ≠ s.nextId := by omega
  have hj₁ne : j₁ ≠ s.nextId := by
    rw [get_id_no_sep s2 _ (basename_no_sep src)] at hj₁
    simp only [Option.getD_some] at hj₁
    obtain ⟨ej, hejmem, hejid, _, hejpar⟩ := findEntityId_spec hj₁
    intro hc
    have hejtE : ej = ⟨s.nextId, temp, some (pid.getD s.projectId), CType.folder, []⟩ :=
      List.inj_on_of_nodup_map hno2 hejmem htE2 (by rw [hejid, hc])
    rw [hejtE] at hejpar
    simp at hejpar
    exact hPne hejpar
  have hc₁ : c₁ = s.nextId := by
    rw [stripSlash_of_not_mem (basename_no_sep (stripSlash dst)),
      get_parent_id_no_sep _ (basename_no_sep (stripSlash dst))] at hgp₁
    simpa using hgp₁.symm
  have hA3 : ∀ e ∈ s3.entities,
      (e.name = temp ∧ e.parent = some (pid.getD s.projectId)) → e.id = s.nextId := by
    intro e he hpred
    rcases hmem₃ e he with ⟨he2, _⟩ | ⟨_, _, hep⟩
    · exact hA2 e he2 hpred
    · rw [hpred.2, hc₁] at hep
      simp at hep
      exact absurd hep hPne
  have htE3 : (⟨s.nextId, temp, some (pid.getD s.projectId), CType.folder, []⟩ : Entity)
      ∈ s3.entities :=
    hback₃ _ htE2 (fun hc => hj₁ne hc.symm)
  have hno3 : (s3.entities.map (·.id)).Nodup := by rw [hids₃]; exact hno2
  have hfind3 : findEntityId s3 temp (pid.getD s.projectId) = some s.nextId :=
    findEntityId_of_unique ⟨_, htE3, rfl, rfl⟩ hA3
  -- second mv: called without a parent, it resolves relative to the root
  obtain ⟨j₂, c₂, hj₂, hd₂, hgp₂, _, _, _, hmem₄, _⟩ := mv_ok_mem hmv2
  simp only [Option.getD_none] at hj₂ hd₂ hgp₂
  have hkey : ¬(basename (stripSlash (stripSlash dst)) = temp ∧
      c₂ = pid.getD s.projectId) := by
    rintro ⟨hbn, hcc⟩
    by_cases hm : '/' ∈ stripSlash (stripSlash dst)
    · have hdec := get_id_decomp s3 (stripSlash (stripSlash dst))
        (some s3.projectId) hm hseg
      rw [hd₂, get_parent_id_sep hm hgp₂] at hdec
      simp only [Option.getD_some] at hdec
      rw [hbn, hcc] at hdec
      rw [hfind3] at hdec
      simp at hdec
    · rw [basename_of_not_mem hm] at hbn
      have hcp2 : c₂ = s3.projectId := by
        rw [get_parent_id_no_sep _ hm] at hgp₂
        simpa using hgp₂.symm
      rw [get_id_no_sep s3 _ hm] at hd₂
      simp only [Option.getD_some] at hd₂
      rw [hbn, hcp2.symm.trans hcc] at hd₂
      rw [hfind3] at hd₂
      simp at hd₂
  have hA4 : ∀ e ∈ s4.entities,
      (e.name = temp ∧ e.parent = some (pid.getD s.projectId)) → e.id = s.nextId := by
    intro e he hpred
    rcases hmem₄ e he with ⟨he3, _⟩ | ⟨_, hen, hep⟩
    · exact hA3 e he3 hpred
    · exfalso
      apply hkey
      constructor
      · rw [← hen, hpred.1]
      · rw [hpred.2] at hep
        simpa using hep.symm
  -- the final rm looked the staging name up under the parent and succeeded,
  -- so what it found (and deleted) carries the one admissible identifier
  obtain ⟨r, hr, hs'⟩ := rm_ok_shape hcp
  rw [stripSlash_of_not_mem htemp, get_id_no_sep s4 _ htemp] at hr
  simp only [Option.getD_some] at hr
  obtain ⟨er, hermem, herid, hername, herpar⟩ := findEntityId_spec hr
  have hr' : r = s.nextId := by
    rw [← herid]
    exact hA4 er hermem ⟨hername, herpar⟩
  subst hr'
  -- conclusion: nothing named like the staging folder survives under the parent
  intro e he hpred
  rw [hs'] at he
  obtain ⟨he4, hene⟩ := mem_deleteEntity he
  exact hene (hA4 e he4 hpred)

/-! ## Claim C2, counterexample and witness stores -/

/-- Store for the C2 counterexample: a project holding a file `a.txt` and a
folder `d`. -/
def cpStore : Store :=
  Store.mk
    [ Entity.mk 1 (str "proj") none .project [],
      Entity.mk 2 (str "a.txt") (some 1) .file [7],
      Entity.mk 3 (str "d") (some 1) .folder [] ] 4 1

/-- C2 fails on the code as stated: copying `a.txt` to `d/a.txt` (a
perfectly ordinary copy whose three precondition checks all pass) creates
the staging folder `t`, then aborts inside the staging folder because source
and destination basenames coincide — and cp returns with the staging folder
still present in the store: no cleanup runs on failure paths. -/
theorem c2_cex_staging_folder_leaks :
    cp cpStore (str "a.txt") (str "d/a.txt") none (str "t") =
      (.error .mvDstExists, Store.mk
        [ Entity.mk 1 (str "proj") none .project [],
          Entity.mk 2 (str "a.txt") (some 1) .file [7],
          Entity.mk 3 (str "d") (some 1) .folder [],
          Entity.mk 4 (str "t") (some 1) .folder [],
          Entity.mk 5 (str "a.txt") (some 4) .file [7] ] 6 1) ∧
    (Entity.mk 4 (str "t") (some 1) .folder []) ∈
      (cp cpStore (str "a.txt") (str "d/a.txt") none (str "t")).2.entities := by
  constructor
  · simp [cp, mkdir, mv, rm, get_id, get_parent_id, dir_exists, file_exists, exists',
      getMeta, entityById, getChildren, findEntityId, createFolderStrict, syn_move,
      storeUpdate, expandDoomed, doomedFrom, deleteEntity, copySubtree, copyChildren,
      str, pySplit, pyJoin, stripSlash, basename, dirname, cpStore]
  · simp [cp, mkdir, mv, rm, get_id, get_parent_id, dir_exists, file_exists, exists',
      getMeta, entityById, getChildren, findEntityId, createFolderStrict, syn_move,
      storeUpdate, expandDoomed, doomedFrom, deleteEntity, copySubtree, copyChildren,
      str, pySplit, pyJoin, stripSlash, basename, dirname, cpStore]

/-- Store for the C2 witness: a project holding one file. -/
def cpStoreB : Store :=
  Store.mk
    [ Entity.mk 1 (str "proj") none .project [],
      Entity.mk 2 (str "a.txt") (some 1) .file [7] ] 3 1

/-- The store a successful `cp cpStoreB "a.txt" "b.txt"` ends in. -/
def cpStoreBAfter : Store :=
  Store.mk
    [ Entity.mk 1 (str "proj") none .project [],
      Entity.mk 2 (str "a.txt") (some 1) .file [7],
      Entity.mk 4 (str "b.txt") (some 1) .file [7] ] 5 1

/-- Witness for C2's amended claim at a concrete input: a successful copy
of `a.txt` to `b.txt`, with staging name `t`, ends in a store with no trace
of the staging folder under the project. -/
theorem c2_cp_success_deletes_staging_witness :
    cp cpStoreB (str "a.txt") (str "b.txt") none (str "t") = (.ok (), cpStoreBAfter) ∧
    (∀ e ∈ cpStoreBAfter.entities, ¬(e.name = str "t" ∧ e.parent = some 1)) := by
  have hcp : cp cpStoreB (str "a.txt") (str "b.txt") none (str "t") =
      (.ok (), cpStoreBAfter) := by
    simp [cp, mkdir, mv, rm, get_id, get_parent_id, dir_exists, file_exists, exists',
      getMeta, entityById, getChildren, findEntityId, createFolderStrict, syn_move,
      storeUpdate, expandDoomed, doomedFrom, deleteEntity, copySubtree, copyChildren,
      str, pySplit, pyJoin, stripSlash, basename, dirname, cpStoreB, cpStoreBAfter]
  refine ⟨hcp, ?_⟩
  have h := c2_cp_success_deletes_staging cpStoreB cpStoreBAfter
    (str "a.txt") (str "b.txt") (str "t") none () (by decide) (by decide)
    (by intro e he q hq; fin_cases he <;> simp_all [cpStoreB] <;> omega)
    (by decide) (by decide) (by decide) (by decide) hcp
  simpa using h

/-! ## Round-trip infrastructure: tree predicates -/

/-- Names of a forest's children, in order. -/
def forestNames : LForest → List Str
  | .nil => []
  | .cons n _ rest => n :: forestNames rest

mutual

/-- A local tree as a real filesystem produces it: sibling names distinct,
nonempty and free of separators. -/
def wfNode : LNode → Prop
  | .file _ => True
  | .dir F => wfForest F

/-- Forest version of `wfNode`. -/
def wfForest : LForest → Prop
  | .nil => True
  | .cons n t rest =>
    n ≠ [] ∧ '/' ∉ n ∧ n ∉ forestNames rest ∧ wfNode t ∧ wfForest rest

end

mutual

/-- No file inside the tree is skipped by upload's hidden-name check. -/
def noSkips (hidden : Bool) : LNode → Prop
  | .file _ => True
  | .dir F => noSkipsF hidden F

/-- Forest version of `noSkips`: a file child whose name starts with `.`
is only allowed when the hidden flag is set. -/
def noSkipsF (hidden : Bool) : LForest → Prop
  | .nil => True
  | .cons n t rest =>
    (match t with
     | .file _ => hidden = true ∨ n.head? ≠ some '.'
     | .dir _ => True) ∧ noSkips hidden t ∧ noSkipsF hidden rest

end

/-- The top-level hidden-name check of `upload` applies the *local* name of
the uploaded tree, and only when it is a file. -/
def fileOk (hidden : Bool) (localName : Str) : LNode → Prop
  | .file _ => hidden = true ∨ localName.head? ≠ some '.'
  | .dir _ => True

mutual

/-- Depth of a local tree, bounding `download`'s recursion. -/
def depthN : LNode → Nat
  | .file _ => 0
  | .dir F => depthF F + 1

/-- Forest version of `depthN`. -/
def depthF : LForest → Nat
  | .nil => 0
  | .cons _ t rest => max (depthN t) (depthF rest)

end

mutual

/-- The store subtree rooted at identifier `i` mirrors the local tree: the
entity is a file with the right content, or a folder whose `getChildren`
list corresponds one-to-one, in order, with the forest; every identifier of
the mirrored subtree lies in `[lo, hi)`. -/
def mirrors (s : Store) (i lo hi : Nat) : LNode → Prop
  | .file c => lo ≤ i ∧ i < hi ∧
      ∃ e, entityById s i = some e ∧ e.ctype = .file ∧ e.content = c
  | .dir F => lo ≤ i ∧ i < hi ∧
      (∃ e, entityById s i = some e ∧ e.ctype = .folder) ∧
      mirrorsChildren s (getChildren s i) lo hi F

/-- Pointwise correspondence between a child-entity list and a forest. -/
def mirrorsChildren (s : Store) : List Entity → Nat → Nat → LForest → Prop
  | [], _, _, .nil => True
  | e :: es, lo, hi, .cons n t rest =>
      e.name = n ∧ mirrors s e.id lo hi t ∧ mirrorsChildren s es lo hi rest
  | _ :: _, _, _, .nil => False
  | [], _, _, .cons _ _ _ => False

end

/-- A local path lies at or below `lp`. -/
def underPath (lp q : Str) : Prop :=
  q = lp ∨ ∃ r, q = lp ++ '/' :: r

/-! ## Path separation lemmas -/

theorem seg_split_inj {a₁ a₂ b₁ b₂ : Str} (h1 : '/' ∉ a₁) (h2 : '/' ∉ a₂)
    (heq : a₁ ++ '/' :: b₁ = a₂ ++ '/' :: b₂) : a₁ = a₂ ∧ b₁ = b₂ := by
  have hs := congrArg (pySplit '/') heq
  rw [pySplit_append_sep, pySplit_append_sep, pySplit_of_not_mem h1,
    pySplit_of_not_mem h2] at hs
  simp at hs
  refine ⟨hs.1, ?_⟩
  rw [← pyJoin_pySplit '/' b₁, hs.2, pyJoin_pySplit]

theorem underPath_extend {lp n q : Str} (h : underPath (lp ++ '/' :: n) q) :
    underPath lp q := by
  rcases h with h | ⟨r, hr⟩
  · exact Or.inr ⟨n, h⟩
  · exact Or.inr ⟨n ++ '/' :: r, by rw [hr]; simp⟩

theorem firstSeg_append {a z : Str} (ha : '/' ∉ a)
    (hz : z = [] ∨ ∃ r, z = '/' :: r) :
    (a ++ z).takeWhile (fun c => !(decide (c = '/'))) = a := by
  induction a with
  | nil =>
    rcases hz with hz | ⟨r, hz⟩ <;> subst hz <;> simp [List.takeWhile]
  | cons c cs ih =>
    have hc : ¬ c = '/' := fun h => ha (by simp [h])
    have hcs : '/' ∉ cs := fun h => ha (List.mem_cons_of_mem c h)
    simp only [List.cons_append, List.takeWhile_cons]
    rw [if_pos (by simp [hc]), ih hcs]

theorem underPath_shape {lp n q : Str} (h : underPath (lp ++ '/' :: n) q) :
    ∃ z, q = lp ++ '/' :: (n ++ z) ∧ (z = [] ∨ ∃ r, z = '/' :: r) := by
  rcases h with h | ⟨r, hr⟩
  · exact ⟨[], by simp [h], Or.inl rfl⟩
  · exact ⟨'/' :: r, by simp [hr], Or.inr ⟨r, rfl⟩⟩

theorem underPath_disjoint {lp n₁ n₂ q : Str} (h1 : '/' ∉ n₁) (h2 : '/' ∉ n₂)
    (hne : n₁ ≠ n₂) (hq : underPath (lp ++ '/' :: n₁) q) :
    ¬ underPath (lp ++ '/' :: n₂) q := by
  intro hq₂
  obtain ⟨z₁, he₁, hz₁⟩ := underPath_shape hq
  obtain ⟨z₂, he₂, hz₂⟩ := underPath_shape hq₂
  rw [he₁] at he₂
  have hmid := List.append_cancel_left he₂
  simp only [List.cons.injEq, true_and] at hmid
  have := congrArg (List.takeWhile (fun c => !(decide (c = '/')))) hmid
  rw [firstSeg_append h1 hz₁, firstSeg_append h2 hz₂] at this
  exact hne this

theorem localParent_append {lp n : Str} (h : '/' ∉ n) :
    localParent (lp ++ '/' :: n) = lp := by
  unfold localParent
  rw [if_pos (by simp), dirname, pySplit_append_sep, pySplit_of_not_mem h]
  rw [List.dropLast_concat, pyJoin_pySplit]

theorem not_lexists_of_not_under {fs : LocalFS} {lp : Str}
    (h : ∀ x ∈ fs, ¬ underPath lp x.1) : lexists fs lp = false := by
  rw [lexists]
  rw [List.any_eq_false]
  intro x hx
  simp only [decide_eq_true_eq]
  intro hc
  exact h x hx (Or.inl hc)

theorem lisdir_append (fs fs' : LocalFS) (p : Str) (h : lisdir fs p = true) :
    lisdir (fs ++ fs') p = true := by
  rw [lisdir] at h ⊢
  rw [List.any_append, h]
  rfl

/-! ## dlEntries path coverage -/

mutual

theorem dlEntries_under (t : LNode) (lp : Str) :
    ∀ x ∈ dlEntries lp t, underPath lp x.1 := by
  cases t with
  | file c =>
    intro x hx
    simp [dlEntries] at hx
    rw [hx]
    exact Or.inl rfl
  | dir F =>
    intro x hx
    rw [dlEntries] at hx
    rcases List.mem_cons.mp hx with hx | hx
    · rw [hx]; exact Or.inl rfl
    · obtain ⟨n, _, hu⟩ := dlForest_under F lp x hx
      exact underPath_extend hu

theorem dlForest_under (F : LForest) (lp : Str) :
    ∀ x ∈ dlForest lp F, ∃ n ∈ forestNames F, underPath (lp ++ '/' :: n) x.1 := by
  cases F with
  | nil => intro x hx; simp [dlForest] at hx
  | cons n t rest =>
    intro x hx
    rw [dlForest] at hx
    rcases List.mem_append.mp hx with hx | hx
    · exact ⟨n, by simp [forestNames], dlEntries_under t (lp ++ '/' :: n) x hx⟩
    · obtain ⟨m, hm, hu⟩ := dlForest_under rest lp x hx
      exact ⟨m, by simp [forestNames, hm], hu⟩

end

/-! ## Frame lemmas for mirrors -/

theorem find?_eq_of_unique {α} {l : List α} {p : α → Bool} {x : α}
    (hx : x ∈ l) (hpx : p x = true) (huniq : ∀ y ∈ l, p y = true → y = x) :
    l.find? p = some x := by
  cases hf : l.find? p with
  | none => exact absurd hpx (by simpa using List.find?_eq_none.mp hf x hx)
  | some m => rw [huniq m (List.mem_of_find?_eq_some hf) (List.find?_some hf)]

theorem entityById_append {s s' : Store} {Δ : List Entity}
    (h : s'.entities = s.entities ++ Δ) {i : Nat} {e : Entity}
    (he : entityById s i = some e) : entityById s' i = some e := by
  unfold entityById at he ⊢
  rw [h, List.find?_append, he]
  rfl

theorem getChildren_append {s s' : Store} {Δ : List Entity}
    (h : s'.entities = s.entities ++ Δ) (i : Nat)
    (hnone : ∀ e ∈ Δ, e.parent ≠ some i) :
    getChildren s' i = getChildren s i := by
  unfold getChildren
  rw [h, List.filter_append]
  have hz : Δ.filter (fun e =>
      decide (e.parent = some i ∧ (e.ctype = .folder ∨ e.ctype = .file))) = [] := by
    rw [List.filter_eq_nil]
    intro e he
    simp only [decide_eq_true_eq, not_and]
    intro hp
    exact absurd hp (hnone e he)
  rw [hz, List.append_nil]

mutual

theorem mirrors_append (t : LNode) {s s' : Store} {Δ : List Entity}
    {i lo hi : Nat} (hents : s'.entities = s.entities ++ Δ)
    (hΔ : ∀ e ∈ Δ, ∀ q, e.parent = some q → ¬(lo ≤ q ∧ q < hi))
    (hm : mirrors s i lo hi t) : mirrors s' i lo hi t := by
  cases t with
  | file c =>
    rw [mirrors] at hm ⊢
    obtain ⟨h1, h2, e, he, h3, h4⟩ := hm
    exact ⟨h1, h2, e, entityById_append hents he, h3, h4⟩
  | dir F =>
    rw [mirrors] at hm ⊢
    obtain ⟨h1, h2, ⟨e, he, h3⟩, h4⟩ := hm
    have hch : getChildren s' i = getChildren s i :=
      getChildren_append hents i (fun e' he' hp =>
        hΔ e' he' i hp ⟨h1, h2⟩)
    rw [hch]
    exact ⟨h1, h2, ⟨e, entityById_append hents he, h3⟩,
      mirrorsChildren_append F hents hΔ h4⟩

theorem mirrorsChildren_append (F : LForest) {s s' : Store} {Δ : List Entity}
    {es : List Entity} {lo hi : Nat} (hents : s'.entities = s.entities ++ Δ)
    (hΔ : ∀ e ∈ Δ, ∀ q, e.parent = some q → ¬(lo ≤ q ∧ q < hi))
    (hm : mirrorsChildren s es lo hi F) : mirrorsChildren s' es lo hi F := by
  cases F with
  | nil =>
    cases es with
    | nil => rw [mirrorsChildren]; trivial
    | cons e es' => rw [mirrorsChildren] at hm; exact absurd hm (by simp)
  | cons n t rest =>
    cases es with
    | nil => rw [mirrorsChildren] at hm; exact absurd hm (by simp)
    | cons e es' =>
      rw [mirrorsChildren] at hm ⊢
      obtain ⟨h1, h2, h3⟩ := hm
      exact ⟨h1, mirrors_append t hents hΔ h2,
        mirrorsChildren_append rest hents hΔ h3⟩

end

mutual

theorem mirrors_widen (t : LNode) {s : Store} {i lo hi lo' hi' : Nat}
    (hlo : lo' ≤ lo) (hhi : hi ≤ hi') (hm : mirrors s i lo hi t) :
    mirrors s i lo' hi' t := by
  cases t with
  | file c =>
    rw [mirrors] at hm ⊢
    obtain ⟨h1, h2, h3⟩ := hm
    exact ⟨le_trans hlo h1, lt_of_lt_of_le h2 hhi, h3⟩
  | dir F =>
    rw [mirrors] at hm ⊢
    obtain ⟨h1, h2, h3, h4⟩ := hm
    exact ⟨le_trans hlo h1, lt_of_lt_of_le h2 hhi, h3,
      mirrorsChildren_widen F hlo hhi h4⟩

theorem mirrorsChildren_widen (F : LForest) {s : Store} {es : List Entity}
    {lo hi lo' hi' : Nat} (hlo : lo' ≤ lo) (hhi : hi ≤ hi')
    (hm : mirrorsChildren s es lo hi F) : mirrorsChildren s es lo' hi' F := by
  cases F with
  | nil =>
    cases es with
    | nil => rw [mirrorsChildren]; trivial
    | cons e es' => rw [mirrorsChildren] at hm; exact absurd hm (by simp)
  | cons n t rest =>
    cases es with
    | nil => rw [mirrorsChildren] at hm; exact absurd hm (by simp)
    | cons e es' =>
      rw [mirrorsChildren] at hm ⊢
      obtain ⟨h1, h2, h3⟩ := hm
      exact ⟨h1, mirrors_widen t hlo hhi h2, mirrorsChildren_widen rest hlo hhi h3⟩

end

/-! ## Upload success shapes -/

theorem syn_store_file_fresh {s : Store} {name : Str} {parent : Nat}
    {content : List Nat} (hfree : findEntityId s name parent = none) :
    syn_store_file s name parent content = .ok { s with
      entities := s.entities ++
        [⟨s.nextId, name, some parent, .file, content⟩],
      nextId := s.nextId + 1 } := by
  unfold syn_store_file
  rw [findEntityId_map_none hfree]

theorem syn_store_folder_fresh {s : Store} {name : Str} {parent : Nat}
    (hfree : findEntityId s name parent = none) :
    syn_store_folder s name parent = .ok (s.nextId, { s with
      entities := s.entities ++
        [⟨s.nextId, name, some parent, .folder, []⟩],
      nextId := s.nextId + 1 }) := by
  unfold syn_store_folder
  rw [findEntityId_map_none hfree]

theorem entityById_fresh {s : Store} {x : Entity}
    (hb : ∀ e ∈ s.entities, e.id < s.nextId) (hx : x.id = s.nextId) :
    entityById { s with entities := s.entities ++ [x], nextId := s.nextId + 1 }
      x.id = some x := by
  unfold entityById
  simp only
  rw [List.find?_append]
  have h1 : s.entities.find? (fun e => decide (e.id = x.id)) = none := by
    rw [List.find?_eq_none]
    intro e he
    simp only [decide_eq_true_eq]
    intro hc
    have := hb e he
    omega
  rw [h1]
  simp

theorem filter_sub_singleton {α} {l : List α} {p q : α → Bool} {x : α}
    (hpq : ∀ e, q e = true → p e = true) (hx : q x = true)
    (hfp : l.filter p = [x]) : l.filter q = [x] := by
  induction l with
  | nil => simp at hfp
  | cons e l' ih =>
    cases hq : q e with
    | true =>
      have hp : p e = true := hpq e hq
      rw [List.filter_cons_of_pos hp] at hfp
      simp only [List.cons.injEq] at hfp
      obtain ⟨hex, hrest⟩ := hfp
      rw [List.filter_cons_of_pos hq, hex]
      have hempty : l'.filter q = [] := by
        rw [List.filter_eq_nil] at hrest ⊢
        intro y hy hqy
        exact hrest y hy (hpq y hqy)
      rw [hempty]
    | false =>
      cases hp : p e with
      | true =>
        rw [List.filter_cons_of_pos hp] at hfp
        simp only [List.cons.injEq] at hfp
        rw [hfp.1] at hq
        rw [hx] at hq
        simp at hq
      | false =>
        rw [List.filter_cons_of_neg (by simp [hp])] at hfp
        rw [List.filter_cons_of_neg (by simp [hq])]
        exact ih hfp

/-- Sibling uniqueness: two stored entities with the same name under the
same parent are the same record (the invariant the Synapse store keeps and
`findEntityId` relies on). -/
def SibUniq (l : List Entity) : Prop :=
  ∀ e₁ ∈ l, ∀ e₂ ∈ l, e₁.name = e₂.name → e₁.parent = e₂.parent → e₁ = e₂

theorem SibUniq_snoc {l : List Entity} {x : Entity}
    (hfresh : ∀ e ∈ l, ¬(e.name = x.name ∧ e.parent = x.parent))
    (hs : SibUniq l) : SibUniq (l ++ [x]) := by
  intro e₁ h₁ e₂ h₂ hn hp
  rcases List.mem_append.mp h₁ with m₁ | m₁ <;>
    rcases List.mem_append.mp h₂ with m₂ | m₂
  · exact hs e₁ m₁ e₂ m₂ hn hp
  · simp only [List.mem_singleton] at m₂
    subst m₂
    exact absurd ⟨hn, hp⟩ (hfresh e₁ m₁)
  · simp only [List.mem_singleton] at m₁
    subst m₁
    exact absurd ⟨hn.symm, hp.symm⟩ (hfresh e₂ m₂)
  · simp only [List.mem_singleton] at m₁ m₂
    rw [m₁, m₂]

/-- What a successful tree upload appended below the container `c`: exactly
one new entity directly under `c` (the root of the uploaded subtree, named
`nm`, carrying the next fresh identifier), everything else under fresh
identifiers, no projects, and identifier distinctness preserved. -/
def UploadedΔ (s : Store) (c : Nat) (nm : Str) (s' : Store) : Prop :=
  ∃ rootE Δ, s'.entities = s.entities ++ Δ ∧
    rootE.id = s.nextId ∧ rootE.name = nm ∧ rootE.parent = some c ∧
    (rootE.ctype = CType.file ∨ rootE.ctype = CType.folder) ∧
    Δ.filter (fun e => e.parent == some c) = [rootE] ∧
    (∀ e ∈ Δ, (s.nextId ≤ e.id ∧ e.id < s'.nextId) ∧ e.ctype ≠ CType.project ∧
      (∀ q, e.parent = some q → q = c ∨ (s.nextId ≤ q ∧ q < s'.nextId))) ∧
    ((∀ e ∈ s.entities, e.id < s.nextId) → (s.entities.map (·.id)).Nodup →
      (s'.entities.map (·.id)).Nodup) ∧
    (SibUniq s.entities → SibUniq s'.entities)

/-- Outcome of a successful single-name tree upload. -/
def UOk (s : Store) (c : Nat) (nm : Str) (t : LNode) (s' : Store) : Prop :=
  s'.projectId = s.projectId ∧ s.nextId < s'.nextId ∧
  mirrors s' s.nextId s.nextId s'.nextId t ∧ UploadedΔ s c nm s'

theorem getChildren_append_filter {s s' : Store} {Δ : List Entity}
    (h : s'.entities = s.entities ++ Δ) (i : Nat) :
    getChildren s' i = getChildren s i ++ Δ.filter (fun e =>
      decide (e.parent = some i ∧ (e.ctype = .folder ∨ e.ctype = .file))) := by
  unfold getChildren
  rw [h, List.filter_append]

/-- Outcome of a successful forest upload below the folder `fid`. -/
def FOk (s : Store) (fid : Nat) (F : LForest) (s' : Store) : Prop :=
  s'.projectId = s.projectId ∧ s.nextId ≤ s'.nextId ∧
  ∃ roots Δ, s'.entities = s.entities ++ Δ ∧
    getChildren s' fid = getChildren s fid ++ roots ∧
    mirrorsChildren s' roots s.nextId s'.nextId F ∧
    (∀ e ∈ Δ, (s.nextId ≤ e.id ∧ e.id < s'.nextId) ∧ e.ctype ≠ CType.project ∧
      (∀ q, e.parent = some q → q = fid ∨ (s.nextId ≤ q ∧ q < s'.nextId)) ∧
      (e.parent = some fid → e.name ∈ forestNames F)) ∧
    ((∀ e ∈ s.entities, e.id < s.nextId) → (s.entities.map (·.id)).Nodup →
      (s'.entities.map (·.id)).Nodup) ∧
    (SibUniq s.entities → SibUniq s'.entities)

mutual

theorem upload_node_ok (t : LNode) : ∀ (s : Store) (ln nm : Str) (c : Nat)
    (hidden : Bool), wfNode t → noSkips hidden t → fileOk hidden ln t →
    '/' ∉ nm → findEntityId s nm c = none → c < s.nextId →
    (∀ e ∈ s.entities, e.id < s.nextId) →
    (∀ e ∈ s.entities, ∀ q, e.parent = some q → q < s.nextId) →
    ∃ s', upload s ln t nm (some c) hidden = (.ok (), s') ∧ UOk s c nm t s' := by
  intro s ln nm c hidden hwf hns hfo hnm hfree hc hb hpb
  have hstrip : stripSlash nm = nm := stripSlash_of_not_mem hnm
  have hbase : basename nm = nm := basename_of_not_mem hnm
  have hcont : uploadContainer s nm c = .ok c := by
    unfold uploadContainer; rw [if_neg hnm]
  cases t with
  | file content =>
    have hcond : (hidden || !(decide (ln.head? = some '.'))) = true := by
      rcases hfo with h | h
      · rw [h]; rfl
      · simp [h]
    refine ⟨{ s with entities := s.entities ++
        [⟨s.nextId, nm, some c, .file, content⟩], nextId := s.nextId + 1 },
      ?_, ?_⟩
    · unfold upload
      simp only [Option.getD_some, hstrip, hcont, hbase, hcond,
        syn_store_file_fresh hfree, if_true]
    · refine ⟨rfl, by simp, ?_, ?_⟩
      · rw [mirrors]
        exact ⟨le_rfl, by simp, ⟨s.nextId, nm, some c, .file, content⟩,
          entityById_fresh hb rfl, rfl, rfl⟩
      · refine ⟨⟨s.nextId, nm, some c, .file, content⟩,
          [⟨s.nextId, nm, some c, .file, content⟩],
          rfl, rfl, rfl, rfl, Or.inl rfl, by simp, ?_, ?_, ?_⟩
        · intro e he
          simp only [List.mem_singleton] at he
          subst he
          refine ⟨⟨le_rfl, by simp⟩, by simp, fun q hq => ?_⟩
          simp only [Option.some.injEq] at hq
          exact Or.inl hq.symm
        · intro hb' hnd
          simp only [List.map_append, List.map_cons, List.map_nil]
          rw [List.nodup_append]
          refine ⟨hnd, List.nodup_singleton _, fun x hx => ?_⟩
          simp only [List.mem_map] at hx
          obtain ⟨e, he, hex⟩ := hx
          have := hb' e he
          simp only [List.mem_singleton]
          omega
        · intro hsib
          exact SibUniq_snoc
            (fun e he hcon => findEntityId_none_iff.mp hfree e he
              ⟨hcon.1, hcon.2⟩) hsib
  | dir F =>
    rw [wfNode] at hwf
    rw [noSkips] at hns
    have hb₁ : ∀ e ∈ s.entities ++ [⟨s.nextId, nm, some c, .folder, []⟩],
        e.id < s.nextId + 1 := by
      intro e he
      rcases List.mem_append.mp he with h | h
      · have := hb e h; omega
      · simp only [List.mem_singleton] at h; subst h; simp
    have hpb₁ : ∀ e ∈ s.entities ++ [⟨s.nextId, nm, some c, .folder, []⟩],
        ∀ q, e.parent = some q → q < s.nextId + 1 := by
      intro e he q hq
      rcases List.mem_append.mp he with h | h
      · have := hpb e h q hq; omega
      · simp only [List.mem_singleton] at h; subst h
        simp only [Option.some.injEq] at hq; omega
    have hnames₁ : ∀ m ∈ forestNames F,
        findEntityId { s with entities := s.entities ++
          [⟨s.nextId, nm, some c, .folder, []⟩], nextId := s.nextId + 1 }
          m s.nextId = none := by
      intro m _
      rw [findEntityId_none_iff]
      intro e he ⟨_, hpar⟩
      rcases List.mem_append.mp he with h | h
      · have := hpb e h s.nextId hpar; omega
      · simp only [List.mem_singleton] at h; subst h
        simp only [Option.some.injEq] at hpar; omega
    obtain ⟨s₂, hrun₂, hproj₂, hle₂, roots, Δ₂, hents₂, hgc₂, hmc₂, hΔ₂,
        hnodup₂, hsib₂⟩ :=
      uploadForest_ok F { s with entities := s.entities ++
          [⟨s.nextId, nm, some c, .folder, []⟩], nextId := s.nextId + 1 }
        s.nextId hidden hwf hns (by simp) hnames₁ hb₁ hpb₁
    have hs1n : ({ s with entities := s.entities ++
        [⟨s.nextId, nm, some c, .folder, []⟩], nextId := s.nextId + 1 } :
        Store).nextId = s.nextId + 1 := rfl
    rw [hs1n] at hle₂ hmc₂
    simp only [hs1n] at hΔ₂
    refine ⟨s₂, ?_, ?_⟩
    · unfold upload
      simp only [Option.getD_some, hstrip, hcont, hbase,
        syn_store_folder_fresh hfree]
      exact hrun₂
    · have hnlt : s.nextId + 1 ≤ s₂.nextId := hle₂
      refine ⟨hproj₂, by omega, ?_, ?_⟩
      · rw [mirrors]
        refine ⟨le_rfl, by omega, ⟨⟨s.nextId, nm, some c, .folder, []⟩,
          entityById_append hents₂ (entityById_fresh hb rfl), rfl⟩, ?_⟩
        have hgc1 : getChildren { s with entities := s.entities ++
            [⟨s.nextId, nm, some c, .folder, []⟩], nextId := s.nextId + 1 }
            s.nextId = [] := by
          unfold getChildren
          rw [List.filter_eq_nil]
          intro e he
          simp only [decide_eq_true_eq, not_and]
          intro hp _
          rcases List.mem_append.mp he with h | h
          · have := hpb e h s.nextId hp; omega
          · simp only [List.mem_singleton] at h; subst h
            simp only [Option.some.injEq] at hp; omega
        rw [hgc₂, hgc1, List.nil_append]
        exact mirrorsChildren_widen F (by omega) le_rfl hmc₂
      · refine ⟨⟨s.nextId, nm, some c, .folder, []⟩,
          ⟨s.nextId, nm, some c, .folder, []⟩ :: Δ₂,
          by rw [hents₂]; simp, rfl, rfl, rfl, Or.inr rfl, ?_, ?_, ?_, ?_⟩
        · rw [List.filter_cons_of_pos (by simp)]
          have hz : Δ₂.filter (fun e => e.parent == some c) = [] := by
            rw [List.filter_eq_nil]
            intro e he
            obtain ⟨_, _, hpq, _⟩ := hΔ₂ e he
            cases hep : e.parent with
            | none => simp
            | some q =>
              simp only [beq_iff_eq, Option.some.injEq]
              rcases hpq q hep with h' | h'
              · omega
              · omega
          rw [hz]
        · intro e he
          rcases List.mem_cons.mp he with h | h
          · subst h
            refine ⟨⟨le_rfl, show s.nextId < s₂.nextId by omega⟩, by simp,
              fun q hq => ?_⟩
            simp only [Option.some.injEq] at hq
            exact Or.inl hq.symm
          · obtain ⟨hid, hct, hpq, _⟩ := hΔ₂ e h
            refine ⟨⟨by omega, by omega⟩, hct, fun q hq => ?_⟩
            rcases hpq q hq with h' | h'
            · exact Or.inr ⟨by omega, by omega⟩
            · exact Or.inr ⟨by omega, by omega⟩
        · intro hb' hnd
          refine hnodup₂ hb₁ ?_
          simp only [List.map_append, List.map_cons, List.map_nil]
          rw [List.nodup_append]
          refine ⟨hnd, List.nodup_singleton _, fun x hx => ?_⟩
          simp only [List.mem_map] at hx
          obtain ⟨e, he, hex⟩ := hx
          have := hb' e he
          simp only [List.mem_singleton]
          omega
        · intro hsib
          refine hsib₂ (SibUniq_snoc
            (fun e he hcon => findEntityId_none_iff.mp hfree e he
              ⟨hcon.1, hcon.2⟩) hsib)

theorem uploadForest_ok (F : LForest) : ∀ (s : Store) (fid : Nat)
    (hidden : Bool), wfForest F → noSkipsF hidden F → fid < s.nextId →
    (∀ n ∈ forestNames F, findEntityId s n fid = none) →
    (∀ e ∈ s.entities, e.id < s.nextId) →
    (∀ e ∈ s.entities, ∀ q, e.parent = some q → q < s.nextId) →
    ∃ s', uploadForest s F fid hidden = (.ok (), s') ∧ FOk s fid F s' := by
  intro s fid hidden hwf hns hfid hnames hb hpb
  cases F with
  | nil =>
    refine ⟨s, rfl, rfl, le_rfl, [], [], by simp, by simp, ?_, by simp,
      fun _ h => h, fun h => h⟩
    rw [mirrorsChildren]
    trivial
  | cons n t rest =>
    rw [wfForest] at hwf
    obtain ⟨hne, hnsl, hnnotin, hwft, hwfr⟩ := hwf
    obtain ⟨hmt, hnst, hnsr⟩ := hns
    have hfo : fileOk hidden n t := by
      cases t with
      | file _ => exact hmt
      | dir _ => rw [fileOk]; trivial
    obtain ⟨s₁, hrun₁, hproj₁, hlt₁, hmir₁, rootE, Δ₁, hents₁, hrid, hrname,
        hrpar, hrct, hfilt₁, hΔ₁, hnodup₁, hsib₁⟩ :=
      upload_node_ok t s n n fid hidden hwft hnst hfo hnsl
        (hnames n (by rw [forestNames]; exact List.mem_cons_self _ _))
        hfid hb hpb
    have hb₁ : ∀ e ∈ s₁.entities, e.id < s₁.nextId := by
      intro e he
      rw [hents₁] at he
      rcases List.mem_append.mp he with h | h
      · have := hb e h; omega
      · exact ((hΔ₁ e h).1).2
    have hpb₁ : ∀ e ∈ s₁.entities, ∀ q, e.parent = some q → q < s₁.nextId := by
      intro e he q hq
      rw [hents₁] at he
      rcases List.mem_append.mp he with h | h
      · have := hpb e h q hq; omega
      · rcases (hΔ₁ e h).2.2 q hq with h' | h'
        · omega
        · omega
    have hroot_only : ∀ e ∈ Δ₁, e.parent = some fid → e = rootE := by
      intro e he hep
      have : e ∈ Δ₁.filter (fun e => e.parent == some fid) :=
        List.mem_filter.mpr ⟨he, by simp [hep]⟩
      rw [hfilt₁] at this
      simpa using this
    have hnames₁ : ∀ m ∈ forestNames rest, findEntityId s₁ m fid = none := by
      intro m hm
      rw [findEntityId_none_iff]
      intro e he ⟨hen, hep⟩
      rw [hents₁] at he
      rcases List.mem_append.mp he with h | h
      · exact (findEntityId_none_iff.mp
          (hnames m (by rw [forestNames]; exact List.mem_cons_of_mem _ hm)))
          e h ⟨hen, hep⟩
      · have := hroot_only e h hep
        subst this
        rw [hrname] at hen
        exact hnnotin (hen ▸ hm)
    obtain ⟨s₂, hrun₂, hproj₂, hle₂, roots₂, Δ₂, hents₂, hgc₂, hmc₂, hΔ₂,
        hnodup₂, hsib₂⟩ :=
      uploadForest_ok rest s₁ fid hidden hwfr hnsr (by omega) hnames₁ hb₁ hpb₁
    refine ⟨s₂, ?_, ?_⟩
    · unfold uploadForest
      rw [hrun₁]
      exact hrun₂
    · refine ⟨hproj₂.trans hproj₁, by omega, rootE :: roots₂, Δ₁ ++ Δ₂,
        by rw [hents₂, hents₁, List.append_assoc], ?_, ?_, ?_, ?_,
        fun hsib => hsib₂ (hsib₁ hsib)⟩
      · have hf1 : Δ₁.filter (fun e =>
            decide (e.parent = some fid ∧ (e.ctype = .folder ∨ e.ctype = .file)))
            = [rootE] := by
          refine filter_sub_singleton ?_ ?_ hfilt₁
          · intro e hq
            simp only [decide_eq_true_eq] at hq
            simp [hq.1]
          · simp only [decide_eq_true_eq]
            exact ⟨hrpar, hrct.symm⟩
        rw [hgc₂, getChildren_append_filter hents₁ fid, hf1, List.append_assoc]
        rfl
      · rw [mirrorsChildren]
        refine ⟨hrname, ?_, mirrorsChildren_widen rest (by omega) le_rfl hmc₂⟩
        rw [hrid]
        have hdisj : ∀ e ∈ Δ₂, ∀ q, e.parent = some q →
            ¬(s.nextId ≤ q ∧ q < s₁.nextId) := by
          intro e he q hq
          rcases (hΔ₂ e he).2.2.1 q hq with h' | h'
          · omega
          · omega
        exact mirrors_widen t le_rfl hle₂ (mirrors_append t hents₂ hdisj hmir₁)
      · intro e he
        rcases List.mem_append.mp he with h | h
        · obtain ⟨⟨hid1, hid2⟩, hct, hpq⟩ := hΔ₁ e h
          refine ⟨⟨hid1, by omega⟩, hct, fun q hq => ?_, fun hp => ?_⟩
          · rcases hpq q hq with h' | h'
            · exact Or.inl h'
            · exact Or.inr ⟨h'.1, by omega⟩
          · have := hroot_only e h hp
            subst this
            rw [hrname, forestNames]
            exact List.mem_cons_self _ _
        · obtain ⟨⟨hid1, hid2⟩, hct, hpq, hnm⟩ := hΔ₂ e h
          refine ⟨⟨by omega, hid2⟩, hct, fun q hq => ?_, fun hp => ?_⟩
          · rcases hpq q hq with h' | h'
            · exact Or.inl h'
            · exact Or.inr ⟨by omega, h'.2⟩
          · rw [forestNames]
            exact List.mem_cons_of_mem _ (hnm hp)
      · intro hb' hnd
        exact hnodup₂ hb₁ (hnodup₁ hb' hnd)

end

/-! ## Download of a mirrored subtree -/

theorem not_under_self_extend {lp n : Str} : ¬ underPath (lp ++ '/' :: n) lp := by
  intro h
  obtain ⟨z, hz, _⟩ := underPath_shape h
  have := congrArg List.length hz
  simp only [List.length_append, List.length_cons] at this
  omega

theorem getChildren_mem {s : Store} {i : Nat} {e : Entity}
    (h : e ∈ getChildren s i) : e ∈ s.entities ∧ e.parent = some i := by
  unfold getChildren at h
  have hm := List.mem_filter.mp h
  have hp := hm.2
  simp only [decide_eq_true_eq] at hp
  exact ⟨hm.1, hp.1⟩

theorem lisdir_of_mem {fs : LocalFS} {p : Str} (h : (p, LEntry.ldir) ∈ fs) :
    lisdir fs p = true := by
  rw [lisdir, List.any_eq_true]
  exact ⟨(p, LEntry.ldir), h, by simp⟩

theorem findEntityId_sib {s : Store} {e : Entity} {n : Str} {pid : Nat}
    (hsib : SibUniq s.entities) (hmem : e ∈ s.entities) (hn : e.name = n)
    (hp : e.parent = some pid) : findEntityId s n pid = some e.id :=
  findEntityId_of_unique ⟨e, hmem, hn, hp⟩ (fun e' he' hpr => by
    rw [hsib e' he' e hmem (hpr.1.trans hn.symm) (hpr.2.trans hp.symm)])

theorem exists'_resolved {s : Store} {path : Str} {p i : Nat} {e : Entity}
    {cts : List CType} (hg : get_id s path (some p) = some i)
    (he : entityById s i = some e) :
    exists' s path cts (some p) = .ok (decide (e.ctype ∈ cts)) := by
  simp only [exists', Option.getD_some, hg, getMeta, he]

theorem forestNames_no_sep (F : LForest) (hwf : wfForest F) :
    ∀ m ∈ forestNames F, '/' ∉ m := by
  cases F with
  | nil =>
    intro m hm
    rw [forestNames] at hm
    exact absurd hm (by simp)
  | cons n t rest =>
    obtain ⟨hne, hnsl, hnnotin, hwft, hwfr⟩ := hwf
    intro m hm
    rw [forestNames] at hm
    rcases List.mem_cons.mp hm with h | h
    · rw [h]; exact hnsl
    · exact forestNames_no_sep rest hwfr m h

mutual

theorem download_node_ok (t : LNode) : ∀ (fuel : Nat) (s : Store)
    (fs : LocalFS) (rp lp : Str) (p i lo hi : Nat),
    depthN t < fuel → wfNode t → SibUniq s.entities →
    mirrors s i lo hi t →
    get_id s (stripSlash rp) (some p) = some i →
    get_id s (stripSlash (stripSlash rp)) (some p) = some i →
    (∀ x ∈ fs, ¬ underPath lp x.1) →
    lisdir fs (localParent lp) = true →
    download fuel s fs rp lp (some p) = (.ok (), fs ++ dlEntries lp t) := by
  intro fuel s fs rp lp p i lo hi hfuel hwf hsib hmir hg1 hg2 hfs hpar
  cases fuel with
  | zero => exact absurd hfuel (by omega)
  | succ f =>
    rw [download]
    cases t with
    | file c =>
      rw [mirrors] at hmir
      obtain ⟨hlo, hhi, e, he, hct, hcont⟩ := hmir
      have hfe : file_exists s (stripSlash rp) (some p) = .ok true := by
        unfold file_exists
        rw [exists'_resolved hg2 he, hct]
        rfl
      simp only [Option.getD_some, not_lexists_of_not_under hfs, hpar,
        Bool.not_true, Bool.false_eq_true, if_false, hfe, hg1, he, dlEntries,
        hcont]
    | dir F =>
      rw [mirrors] at hmir
      obtain ⟨hlo, hhi, ⟨e, he, hct⟩, hmc⟩ := hmir
      rw [wfNode] at hwf
      have hfe : file_exists s (stripSlash rp) (some p) = .ok false := by
        unfold file_exists
        rw [exists'_resolved hg2 he, hct]
        rfl
      have hde : dir_exists s (stripSlash rp) (some p) = .ok true := by
        unfold dir_exists
        rw [exists'_resolved hg2 he, hct]
        rfl
      have hch : downloadChildren f s (fs ++ [(lp, LEntry.ldir)])
          (getChildren s i) lp i = (.ok (),
            (fs ++ [(lp, LEntry.ldir)]) ++ dlForest lp F) := by
        refine downloadChildren_ok F f s (fs ++ [(lp, LEntry.ldir)])
          (getChildren s i) lp i lo hi ?_ hwf hsib hmc
          (fun e' he' => getChildren_mem he') ?_ ?_
        · rw [depthN] at hfuel; omega
        · intro x hx n hn hu
          rcases List.mem_append.mp hx with h | h
          · exact hfs x h (underPath_extend hu)
          · simp only [List.mem_singleton] at h
            subst h
            exact not_under_self_extend hu
        · exact lisdir_of_mem (by simp)
      simp only [Option.getD_some, not_lexists_of_not_under hfs, hpar,
        Bool.not_true, Bool.false_eq_true, if_false, hfe, hde, hg1, hch,
        dlEntries]
      rw [List.append_assoc]
      rfl

theorem downloadChildren_ok (F : LForest) : ∀ (fuel : Nat) (s : Store)
    (fs : LocalFS) (es : List Entity) (lp : Str) (rid lo hi : Nat),
    depthF F < fuel → wfForest F → SibUniq s.entities →
    mirrorsChildren s es lo hi F →
    (∀ e ∈ es, e ∈ s.entities ∧ e.parent = some rid) →
    (∀ x ∈ fs, ∀ n ∈ forestNames F, ¬ underPath (lp ++ '/' :: n) x.1) →
    lisdir fs lp = true →
    downloadChildren fuel s fs es lp rid = (.ok (), fs ++ dlForest lp F) := by
  intro fuel s fs es lp rid lo hi hfuel hwf hsib hmc hmem hfs hdir
  cases F with
  | nil =>
    cases es with
    | nil =>
      rw [downloadChildren, dlForest, List.append_nil]
    | cons e es' =>
      rw [mirrorsChildren] at hmc
      exact absurd hmc (by simp)
  | cons n t rest =>
    cases es with
    | nil =>
      rw [mirrorsChildren] at hmc
      exact absurd hmc (by simp)
    | cons e es' =>
      rw [mirrorsChildren] at hmc
      obtain ⟨hname, hmt, hmrest⟩ := hmc
      obtain ⟨hne, hnsl, hnnotin, hwft, hwfr⟩ := hwf
      rw [depthF] at hfuel
      have hstrip : stripSlash n = n := stripSlash_of_not_mem hnsl
      have hgid : get_id s n (some rid) = some e.id := by
        rw [get_id_no_sep s (some rid) hnsl, Option.getD_some]
        exact findEntityId_sib hsib
          (hmem e (List.mem_cons_self _ _)).1 hname
          (hmem e (List.mem_cons_self _ _)).2
      have hchild : download fuel s fs n (lp ++ '/' :: n) (some rid) =
          (.ok (), fs ++ dlEntries (lp ++ '/' :: n) t) := by
        refine download_node_ok t fuel s fs n (lp ++ '/' :: n) rid e.id lo hi
          (by omega) hwft hsib hmt ?_ ?_
          (fun x hx => hfs x hx n (by simp [forestNames])) ?_
        · rw [hstrip]; exact hgid
        · rw [hstrip, hstrip]; exact hgid
        · rw [localParent_append hnsl]; exact hdir
      have hrest : downloadChildren fuel s
          (fs ++ dlEntries (lp ++ '/' :: n) t) es' lp rid =
          (.ok (), (fs ++ dlEntries (lp ++ '/' :: n) t) ++ dlForest lp rest) := by
        refine downloadChildren_ok rest fuel s _ es' lp rid lo hi (by omega)
          hwfr hsib hmrest (fun e' he' => hmem e' (List.mem_cons_of_mem _ he'))
          ?_ (lisdir_append _ _ _ hdir)
        intro x hx m hm hu
        rcases List.mem_append.mp hx with h | h
        · exact hfs x h m (by simp [forestNames, hm]) hu
        · have hmsl : '/' ∉ m := forestNames_no_sep rest hwfr m hm
          have hmn : m ≠ n := fun hceq => hnnotin (hceq ▸ hm)
          exact underPath_disjoint hmsl hnsl hmn hu
            (dlEntries_under t (lp ++ '/' :: n) x h)
      rw [downloadChildren, hname, hchild]
      show downloadChildren fuel s (fs ++ dlEntries (lp ++ '/' :: n) t)
        es' lp rid = _
      rw [hrest, dlForest, List.append_assoc]

end

/-! ## Strict segment-wise resolution (no root fallback) -/

/-- Resolution of a segment list that fails as soon as one lookup fails:
what `get_id`'s docstring describes, with no `None`-parent substitution
after the first level.  Used to state when a containing path resolves
without engaging the fallback. -/
def resolveSegs (s : Store) : List Str → Nat → Option Nat
  | [], p => some p
  | seg :: rest, p =>
    match findEntityId s seg p with
    | none => none
    | some i => resolveSegs s rest i

theorem resolveSegs_lt {s : Store} (hb : ∀ e ∈ s.entities, e.id < s.nextId) :
    ∀ (l : List Str) (p c : Nat), p < s.nextId →
      resolveSegs s l p = some c → c < s.nextId := by
  intro l
  induction l with
  | nil =>
    intro p c hp h
    simp only [resolveSegs, Option.some.injEq] at h
    omega
  | cons seg rest ih =>
    intro p c hp h
    rw [resolveSegs] at h
    cases hf : findEntityId s seg p with
    | none => rw [hf] at h; exact absurd h (by simp)
    | some j =>
      rw [hf] at h
      obtain ⟨e, hmem, hid, _, _⟩ := findEntityId_spec hf
      have := hb e hmem
      exact ih j c (by omega) h

theorem resolveSegs_concat {s : Store} : ∀ (l : List Str) {p c j : Nat}
    {nm : Str}, resolveSegs s l p = some c → findEntityId s nm c = some j →
    resolveSegs s (l ++ [nm]) p = some j := by
  intro l
  induction l with
  | nil =>
    intro p c j nm h1 h2
    simp only [resolveSegs, Option.some.injEq] at h1
    rw [List.nil_append]
    show (match findEntityId s nm p with
      | none => none
      | some i => resolveSegs s [] i) = some j
    rw [h1, h2]
    rfl
  | cons seg rest ih =>
    intro p c j nm h1 h2
    rw [resolveSegs] at h1
    rw [List.cons_append, resolveSegs]
    cases hf : findEntityId s seg p with
    | none => rw [hf] at h1; exact absurd h1 (by simp)
    | some i =>
      rw [hf] at h1
      exact ih h1 h2

theorem findEntityId_append_some {s s' : Store} {Δ : List Entity}
    (hents : s'.entities = s.entities ++ Δ) {n : Str} {pid j : Nat}
    (h : findEntityId s n pid = some j) : findEntityId s' n pid = some j := by
  unfold findEntityId at h ⊢
  rw [hents, List.find?_append]
  cases hf : s.entities.find?
      (fun e => decide (e.name = n ∧ e.parent = some pid)) with
  | none =>
    rw [hf] at h
    simp at h
  | some e =>
    have h' : e.id = j := by
      rw [hf] at h
      simpa using h
    show Option.map (fun x => x.id) (some e) = some j
    simp [h']

theorem resolveSegs_append_store {s s' : Store} {Δ : List Entity}
    (hents : s'.entities = s.entities ++ Δ) :
    ∀ (l : List Str) (p c : Nat), resolveSegs s l p = some c →
      resolveSegs s' l p = some c := by
  intro l
  induction l with
  | nil => intro p c h; exact h
  | cons seg rest ih =>
    intro p c h
    rw [resolveSegs] at h ⊢
    cases hf : findEntityId s seg p with
    | none => rw [hf] at h; exact absurd h (by simp)
    | some i =>
      rw [hf] at h
      rw [findEntityId_append_some hents hf]
      exact ih i c h

theorem findEntityId_append_root {s s' : Store} {Δ : List Entity}
    {rootE : Entity} {nm : Str} {c : Nat}
    (hents : s'.entities = s.entities ++ Δ)
    (hfree : findEntityId s nm c = none)
    (hfilt : Δ.filter (fun e => e.parent == some c) = [rootE])
    (hname : rootE.name = nm) (hpar : rootE.parent = some c) :
    findEntityId s' nm c = some rootE.id := by
  unfold findEntityId
  rw [hents, List.find?_append, findEntityId_map_none hfree]
  have hmem : rootE ∈ Δ := by
    have h : rootE ∈ Δ.filter (fun e => e.parent == some c) := by
      rw [hfilt]; simp
    exact (List.mem_filter.mp h).1
  have hfd : Δ.find? (fun e => decide (e.name = nm ∧ e.parent = some c)) =
      some rootE := by
    refine find?_eq_of_unique hmem (by simp [hname, hpar]) ?_
    intro y hy hpy
    simp only [decide_eq_true_eq] at hpy
    have h : y ∈ Δ.filter (fun e => e.parent == some c) :=
      List.mem_filter.mpr ⟨hy, by simp [hpy.2]⟩
    rw [hfilt] at h
    simpa using h
  rw [hfd]
  rfl

theorem get_id_of_resolveSegs {s : Store} : ∀ (l : List Str) (p j : Nat),
    l ≠ [] → (∀ sg ∈ l, '/' ∉ sg) → [] ∉ l →
    resolveSegs s l p = some j → get_id s (pyJoin '/' l) (some p) = some j := by
  intro l
  induction l with
  | nil => intro p j h _ _ _; exact absurd rfl h
  | cons seg rest ih =>
    intro p j _ hsl hno hres
    rw [resolveSegs] at hres
    cases hf : findEntityId s seg p with
    | none => rw [hf] at hres; exact absurd hres (by simp)
    | some i =>
      rw [hf] at hres
      cases rest with
      | nil =>
        simp only [resolveSegs, Option.some.injEq] at hres
        have hj : pyJoin '/' [seg] = seg := rfl
        rw [hj, get_id_no_sep s (some p) (hsl seg (by simp)),
          Option.getD_some, hf, hres]
      | cons b u =>
        have hne : ¬(seg = [] ∧ pyJoin '/' (b :: u) = []) := by
          intro hcc
          exact hno (by rw [← hcc.1]; exact List.mem_cons_self _ _)
        rw [pyJoin_cons (by simp) seg,
          get_id_cons s (some p) (hsl seg (by simp)) hne,
          Option.getD_some, hf]
        exact ih i j (by simp)
          (fun x hx => hsl x (List.mem_cons_of_mem _ hx))
          (fun hc => hno (List.mem_cons_of_mem _ hc)) hres

theorem stripSlash_eq_self {p : Str} (h : p.head? ≠ some '/') :
    stripSlash p = p := by
  cases p with
  | nil => rfl
  | cons ch cs =>
    simp only [stripSlash]
    rw [if_neg (fun hc => h (by rw [List.head?_cons, hc]))]

theorem upload_shift {s : Store} {ln : Str} {t : LNode} {R : Str}
    {pid : Option Nat} {hidden : Bool} {c : Nat}
    (hcont : uploadContainer s (stripSlash R) (pid.getD s.projectId) = .ok c)
    (hnm : '/' ∉ basename (stripSlash R)) :
    upload s ln t R pid hidden =
      upload s ln t (basename (stripSlash R)) (some c) hidden := by
  have hcont2 : uploadContainer s (basename (stripSlash R)) c = .ok c := by
    unfold uploadContainer
    rw [if_neg hnm]
  conv_lhs => rw [upload]
  conv_rhs => rw [upload]
  simp only [Option.getD_some, stripSlash_of_not_mem hnm, hcont, hcont2,
    basename_of_not_mem hnm]

/-- C7 (amended): uploading a well-formed local tree (no hidden-name file
skipped by the `hidden` flag) to a remote path whose containing path
resolves strictly (every segment lookup succeeds, so the root fallback is
never engaged) and whose leaf name is still free, then downloading the same
remote path to a fresh local destination whose parent directory exists,
succeeds and writes exactly the image of the uploaded tree: same file
names, same nested folder structure, byte-for-byte identical contents. -/
theorem c7_upload_download_round_trip (s : Store) (t : LNode) (ln R lp : Str)
    (p : Nat) (hidden : Bool) (fs : LocalFS) (fuel : Nat)
    (segsInit : List Str) (nm : Str) (c : Nat)
    (hwf : wfNode t) (hns : noSkips hidden t) (hfo : fileOk hidden ln t)
    (hsib : SibUniq s.entities)
    (hb : ∀ e ∈ s.entities, e.id < s.nextId)
    (hpb : ∀ e ∈ s.entities, ∀ q, e.parent = some q → q < s.nextId)
    (hp : p < s.nextId)
    (hsegs : pySplit '/' (stripSlash R) = segsInit ++ [nm])
    (hnoempty : [] ∉ segsInit) (hnmne : nm ≠ [])
    (hcont : resolveSegs s segsInit p = some c)
    (hfree : findEntityId s nm c = none)
    (hfs : ∀ x ∈ fs, ¬ underPath lp x.1)
    (hdir : lisdir fs (localParent lp) = true)
    (hfuel : depthN t < fuel) :
    ∃ s', upload s ln t R (some p) hidden = (.ok (), s') ∧
      download fuel s' fs R lp (some p) = (.ok (), fs ++ dlEntries lp t) := by
  have hnmmem : nm ∈ pySplit '/' (stripSlash R) := by rw [hsegs]; simp
  have hnmsl : '/' ∉ nm := pySplit_parts_no_sep nm hnmmem
  have hIsl : ∀ sg ∈ segsInit, '/' ∉ sg := fun sg hsg =>
    pySplit_parts_no_sep sg (by rw [hsegs]; exact List.mem_append_left _ hsg)
  have hbase : basename (stripSlash R) = nm := by
    rw [basename, hsegs]
    simp
  have hjoin : pyJoin '/' (segsInit ++ [nm]) = stripSlash R := by
    rw [← hsegs]
    exact pyJoin_pySplit '/' (stripSlash R)
  have hc : c < s.nextId := resolveSegs_lt hb segsInit p c hp hcont
  have hcontainer : uploadContainer s (stripSlash R) p = .ok c := by
    unfold uploadContainer
    cases hsi : segsInit with
    | nil =>
      rw [hsi] at hcont
      simp only [resolveSegs, Option.some.injEq] at hcont
      have hnos : '/' ∉ stripSlash R := by
        rw [← hjoin, hsi]
        simpa using hnmsl
      rw [if_neg hnos, hcont]
    | cons a restI =>
      have hmem2 : '/' ∈ stripSlash R := by
        rw [← hjoin, hsi, List.cons_append, pyJoin_cons (by simp) a]
        simp
      have hdn : dirname (stripSlash R) = pyJoin '/' segsInit := by
        rw [dirname, hsegs, List.dropLast_concat]
      have hgd : get_id s (pyJoin '/' segsInit) (some p) = some c :=
        get_id_of_resolveSegs segsInit p c (by rw [hsi]; simp) hIsl
          hnoempty hcont
      rw [if_pos hmem2, hdn, hgd]
  obtain ⟨s', hrun, hproj', hlt', hmir', rootE, Δ, hents, hrid, hrname, hrpar,
      hrct, hfilt, hΔ, hnodup, hsibp⟩ :=
    upload_node_ok t s ln nm c hidden hwf hns hfo hnmsl hfree hc hb hpb
  have hshift : upload s ln t R (some p) hidden = (.ok (), s') := by
    have h1 : upload s ln t R (some p) hidden =
        upload s ln t (basename (stripSlash R)) (some c) hidden :=
      upload_shift (by simpa using hcontainer) (by rw [hbase]; exact hnmsl)
    rw [h1, hbase]
    exact hrun
  have hsib' : SibUniq s'.entities := hsibp hsib
  have hfind' : findEntityId s' nm c = some s.nextId := by
    have h2 := findEntityId_append_root hents hfree hfilt hrname hrpar
    rw [hrid] at h2
    exact h2
  have hres' : resolveSegs s' (segsInit ++ [nm]) p = some s.nextId :=
    resolveSegs_concat segsInit
      (resolveSegs_append_store hents segsInit p c hcont) hfind'
  have hgall : get_id s' (stripSlash R) (some p) = some s.nextId := by
    rw [← hjoin]
    refine get_id_of_resolveSegs (segsInit ++ [nm]) p s.nextId (by simp)
      ?_ ?_ hres'
    · intro sg hsg
      rcases List.mem_append.mp hsg with h | h
      · exact hIsl sg h
      · simp only [List.mem_singleton] at h
        rw [h]
        exact hnmsl
    · intro hcmem
      rcases List.mem_append.mp hcmem with h | h
      · exact hnoempty h
      · simp only [List.mem_singleton] at h
        exact hnmne h.symm
  have hself : stripSlash (stripSlash R) = stripSlash R := by
    cases hsi : segsInit with
    | nil =>
      apply stripSlash_of_not_mem
      rw [← hjoin, hsi]
      simpa using hnmsl
    | cons a restI =>
      apply stripSlash_eq_self
      have hane : a ≠ [] := fun hae =>
        hnoempty (by rw [hsi, ← hae]; exact List.mem_cons_self _ _)
      have hasl : '/' ∉ a := hIsl a (by rw [hsi]; exact List.mem_cons_self _ _)
      rw [← hjoin, hsi, List.cons_append, pyJoin_cons (by simp) a]
      cases a with
      | nil => exact absurd rfl hane
      | cons ch cst =>
        simp only [List.cons_append, List.head?_cons, ne_eq,
          Option.some.injEq]
        intro hch
        exact hasl (by rw [← hch]; exact List.mem_cons_self _ _)
  refine ⟨s', hshift, ?_⟩
  exact download_node_ok t fuel s' fs R lp p s.nextId s.nextId s'.nextId
    hfuel hwf hsib' hmir' hgall (by rw [hself]; exact hgall) hfs hdir

/-- Store for the C7 counterexample: a bare project. -/
def rtStore : Store :=
  Store.mk [ Entity.mk 1 (str "proj") none .project [] ] 2 1

/-- Local tree for the C7 counterexample: a directory holding one hidden
file `.h`. -/
def rtT : LNode :=
  LNode.dir (LForest.cons (str ".h") (LNode.file [9]) LForest.nil)

/-- The store after uploading `rtT` to `d` with `hidden = false`: only the
folder was stored, the hidden file was skipped. -/
def rtStoreB : Store :=
  Store.mk [ Entity.mk 1 (str "proj") none .project [],
             Entity.mk 2 (str "d") (some 1) .folder [] ] 3 1

/-- C7 fails on the code as stated: uploading the tree `{'.h': file}` to
`d` (with the default `hidden = False`) silently skips the dot-named file,
so downloading `d` to a fresh local path yields only the empty directory —
not a tree identical to the uploaded one. -/
theorem c7_cex_hidden_file_skipped :
    upload rtStore (str "d") rtT (str "d") (some 1) false =
      (.ok (), rtStoreB) ∧
    download 2 rtStoreB [(str ".", LEntry.ldir)] (str "d") (str "out")
        (some 1) =
      (.ok (), [(str ".", LEntry.ldir), (str "out", LEntry.ldir)]) ∧
    [(str ".", LEntry.ldir), (str "out", LEntry.ldir)] ≠
      [(str ".", LEntry.ldir)] ++ dlEntries (str "out") rtT := by
  refine ⟨?_, ?_, by decide⟩
  · simp [upload, uploadForest, uploadContainer, syn_store_folder,
      syn_store_file, findEntityId, stripSlash, basename, pySplit, pyJoin,
      str, rtStore, rtT, rtStoreB]
  · simp [download, downloadChildren, lexists, lisdir, localParent,
      file_exists, dir_exists, exists', get_id, getMeta, entityById,
      getChildren, findEntityId, stripSlash, basename, dirname, pySplit,
      pyJoin, str, rtStoreB]

/-- Local tree for the C7 witness: a directory holding one ordinary file. -/
def rtWT : LNode :=
  LNode.dir (LForest.cons (str "a") (LNode.file [1, 2]) LForest.nil)

/-- Witness for C7's amended claim at a concrete input: uploading the tree
`{'a': file}` to `d/x` below the project, then downloading `d/x` to the
fresh local path `out`, reproduces the tree exactly. -/
theorem c7_upload_download_round_trip_witness :
    ∃ s', upload rtStoreB (str "x") rtWT (str "d/x") (some 1) false =
        (.ok (), s') ∧
      download 2 s' [(str ".", LEntry.ldir)] (str "d/x") (str "out")
          (some 1) =
        (.ok (), [(str ".", LEntry.ldir)] ++ dlEntries (str "out") rtWT) :=
  c7_upload_download_round_trip rtStoreB rtWT (str "x") (str "d/x")
    (str "out") 1 false [(str ".", LEntry.ldir)] 2 [str "d"] (str "x") 2
    (by simp [wfNode, wfForest, forestNames, rtWT, str])
    (by simp [noSkips, noSkipsF, rtWT, str])
    (by simp [fileOk, rtWT])
    (by intro e₁ h₁ e₂ h₂ hn hp; fin_cases h₁ <;> fin_cases h₂ <;>
      simp_all [rtStoreB, str])
    (by intro e he; fin_cases he <;> simp [rtStoreB])
    (by intro e he q hq; fin_cases he <;> simp_all [rtStoreB] <;> omega)
    (by decide) (by decide) (by decide) (by decide) (by decide) (by decide)
    (by
      intro x hx
      simp only [List.mem_singleton] at hx
      subst hx
      intro hu
      rcases hu with h | ⟨r, hr⟩
      · simp [str] at h
      · simp [str] at hr)
    (by decide) (by decide)

end Synapi
